import Mathlib

/-!
Shallow embedding of the hex-grid map generation core of
`src/wasm-babylon-chunks/src/lib.rs`, together with proofs of the spec claims.

Modelling conventions:
* Rust `i32` values are embedded as `ℤ`.  All arithmetic in the embedded code
  (coordinate offsets, hex distances, path costs) stays far from the `i32`
  range for inputs of the size the program handles, so wrap-around is not
  modelled.
* `HashSet<(i32,i32)>` values that are only used through `contains` are
  embedded as `Finset (ℤ × ℤ)`.  Hash containers whose *iteration order*
  matters are embedded by passing the iteration order explicitly as a list,
  constrained to enumerate the set; theorems quantify over all such orders.
* A* `g`/`h`/`f` costs are embedded as `ℕ` (they are nonnegative path lengths
  and hex distances; the `i32::MAX` "absent" sentinel of `g_scores` is
  embedded as `Option ℕ` being `none`).
-/

namespace TupacWasm

/-- Axial hex coordinate `(q, r)`, the key type used throughout the source. -/
abbrev Coord := ℤ × ℤ

/-- `TileType` enumeration from the source (`Grass=0, Building=1, Road=2,
Forest=3, Water=4`). -/
inductive TileType where
  | Grass
  | Building
  | Road
  | Forest
  | Water
deriving DecidableEq, Repr

/-- The `i32` discriminant of a `TileType` (`tile_type as i32` in the source). -/
def TileType.toInt : TileType → ℤ
  | .Grass => 0
  | .Building => 1
  | .Road => 2
  | .Forest => 3
  | .Water => 4

/-- Embeds `hex_distance` (src/wasm-babylon-chunks/src/lib.rs:79-83):
`s = -q - r`, result `(|dq| + |dr| + |ds|) / 2`.  The numerator is even and
nonnegative, so Rust's truncating division and Lean's division agree. -/
def hex_distance (q1 r1 q2 r2 : ℤ) : ℤ :=
  let s1 := -q1 - r1
  let s2 := -q2 - r2
  (|q1 - q2| + |r1 - r2| + |s1 - s2|) / 2

/-- Cube coordinate structure (source lines 663-669). -/
structure CubeCoord where
  q : ℤ
  r : ℤ
  s : ℤ
deriving DecidableEq, Repr

/-- Embeds `axial_to_cube` (source lines 139-145). -/
def axial_to_cube (q r : ℤ) : CubeCoord :=
  { q := q, r := r, s := -q - r }

/-- Embeds `cube_distance` (source lines 150-152):
`max(|dq|, |dr|, |ds|)`. -/
def cube_distance (a b : CubeCoord) : ℤ :=
  max (max |a.q - b.q| |a.r - b.r|) |a.s - b.s|

/-- Embeds `get_hex_neighbors` (source lines 126-135): the 6 axial
neighbor offsets, in source order. -/
def get_hex_neighbors (c : Coord) : List Coord :=
  [(c.1 + 1, c.2), (c.1 - 1, c.2), (c.1, c.2 + 1), (c.1, c.2 - 1),
   (c.1 + 1, c.2 - 1), (c.1 - 1, c.2 + 1)]

/-- The key identity behind both distance functions: for three integers
whose "cube" components sum to zero, the sum of absolute differences is
twice the maximum. -/
theorem abs_sum_eq_two_max (x y : ℤ) :
    |x| + |y| + |(-x - y)| = 2 * max (max |x| |y|) |x + y| := by
  have h1 : (-x - y) = -(x + y) := by ring
  rw [h1, abs_neg, max_def, max_def]
  rcases abs_cases x with ⟨ex, _⟩ | ⟨ex, _⟩ <;>
    rcases abs_cases y with ⟨ey, _⟩ | ⟨ey, _⟩ <;>
    rcases abs_cases (x + y) with ⟨exy, _⟩ | ⟨exy, _⟩ <;>
    rw [ex, ey, exy] <;> split_ifs <;> omega

/-- `hex_distance` agrees with `cube_distance` on the cube forms. -/
theorem hex_distance_eq_cube_distance (q1 r1 q2 r2 : ℤ) :
    hex_distance q1 r1 q2 r2 =
      cube_distance (axial_to_cube q1 r1) (axial_to_cube q2 r2) := by
  unfold hex_distance cube_distance axial_to_cube
  have h : |q1 - q2| + |r1 - r2| + |(-q1 - r1) - (-q2 - r2)| =
      2 * max (max |q1 - q2| |r1 - r2|) |(q1 - q2) + (r1 - r2)| := by
    have := abs_sum_eq_two_max (q1 - q2) (r1 - r2)
    have he : (-q1 - r1) - (-q2 - r2) = -(q1 - q2) - (r1 - r2) := by ring
    rw [he]
    exact this
  simp only
  rw [h]
  have he2 : -q1 - r1 - (-q2 - r2) = -((q1 - q2) + (r1 - r2)) := by ring
  rw [he2, abs_neg]
  omega

/-- `hex_distance` is nonnegative. -/
theorem hex_distance_nonneg (q1 r1 q2 r2 : ℤ) : 0 ≤ hex_distance q1 r1 q2 r2 := by
  rw [hex_distance_eq_cube_distance]
  unfold cube_distance
  have := abs_nonneg ((axial_to_cube q1 r1).q - (axial_to_cube q2 r2).q)
  exact le_trans this (le_trans (le_max_left _ _) (le_max_left _ _))

/-- `hex_distance` of a coordinate with itself is zero. -/
theorem hex_distance_self (q r : ℤ) : hex_distance q r q r = 0 := by
  simp [hex_distance]

/-- `hex_distance` is symmetric. -/
theorem hex_distance_symm (q1 r1 q2 r2 : ℤ) :
    hex_distance q1 r1 q2 r2 = hex_distance q2 r2 q1 r1 := by
  unfold hex_distance
  simp only
  rw [abs_sub_comm q1 q2, abs_sub_comm r1 r2, abs_sub_comm (-q1 - r1) (-q2 - r2)]

/-- Triangle inequality for `cube_distance`. -/
theorem cube_distance_triangle (a b c : CubeCoord) :
    cube_distance a c ≤ cube_distance a b + cube_distance b c := by
  unfold cube_distance
  have hq : |a.q - c.q| ≤ |a.q - b.q| + |b.q - c.q| := by
    have := abs_add (a.q - b.q) (b.q - c.q)
    have he : a.q - c.q = (a.q - b.q) + (b.q - c.q) := by ring
    rw [he]; exact this
  have hr : |a.r - c.r| ≤ |a.r - b.r| + |b.r - c.r| := by
    have := abs_add (a.r - b.r) (b.r - c.r)
    have he : a.r - c.r = (a.r - b.r) + (b.r - c.r) := by ring
    rw [he]; exact this
  have hs : |a.s - c.s| ≤ |a.s - b.s| + |b.s - c.s| := by
    have := abs_add (a.s - b.s) (b.s - c.s)
    have he : a.s - c.s = (a.s - b.s) + (b.s - c.s) := by ring
    rw [he]; exact this
  have h1 : |a.q - b.q| ≤ max (max |a.q - b.q| |a.r - b.r|) |a.s - b.s| :=
    le_trans (le_max_left _ _) (le_max_left _ _)
  have h2 : |a.r - b.r| ≤ max (max |a.q - b.q| |a.r - b.r|) |a.s - b.s| :=
    le_trans (le_max_right _ _) (le_max_left _ _)
  have h3 : |a.s - b.s| ≤ max (max |a.q - b.q| |a.r - b.r|) |a.s - b.s| :=
    le_max_right _ _
  have h4 : |b.q - c.q| ≤ max (max |b.q - c.q| |b.r - c.r|) |b.s - c.s| :=
    le_trans (le_max_left _ _) (le_max_left _ _)
  have h5 : |b.r - c.r| ≤ max (max |b.q - c.q| |b.r - c.r|) |b.s - c.s| :=
    le_trans (le_max_right _ _) (le_max_left _ _)
  have h6 : |b.s - c.s| ≤ max (max |b.q - c.q| |b.r - c.r|) |b.s - c.s| :=
    le_max_right _ _
  simp only [max_le_iff]
  refine ⟨⟨?_, ?_⟩, ?_⟩ <;> omega

/-- Triangle inequality for `hex_distance`. -/
theorem hex_distance_triangle (a b c : Coord) :
    hex_distance a.1 a.2 c.1 c.2 ≤
      hex_distance a.1 a.2 b.1 b.2 + hex_distance b.1 b.2 c.1 c.2 := by
  rw [hex_distance_eq_cube_distance, hex_distance_eq_cube_distance,
    hex_distance_eq_cube_distance]
  exact cube_distance_triangle _ _ _

/-- Adjacent hexes are at `hex_distance` exactly 1. -/
theorem hex_distance_offset (q r dq dr : ℤ) :
    hex_distance q r (q + dq) (r + dr) = (|dq| + |dr| + |dq + dr|) / 2 := by
  unfold hex_distance
  have e1 : q - (q + dq) = -dq := by ring
  have e2 : r - (r + dr) = -dr := by ring
  have e3 : -q - r - (-(q + dq) - (r + dr)) = dq + dr := by ring
  simp only
  rw [e1, e2, e3, abs_neg, abs_neg]

/-- Adjacent hexes are at `hex_distance` exactly 1. -/
theorem hex_distance_adjacent {a b : Coord} (h : b ∈ get_hex_neighbors a) :
    hex_distance a.1 a.2 b.1 b.2 = 1 := by
  obtain ⟨q, r⟩ := a
  simp only [get_hex_neighbors, List.mem_cons, List.not_mem_nil, or_false] at h
  rcases h with h | h | h | h | h | h <;> subst h
  · simpa using hex_distance_offset q r 1 0
  · simpa [sub_eq_add_neg] using hex_distance_offset q r (-1) 0
  · simpa using hex_distance_offset q r 0 1
  · simpa [sub_eq_add_neg] using hex_distance_offset q r 0 (-1)
  · simpa [sub_eq_add_neg] using hex_distance_offset q r 1 (-1)
  · simpa [sub_eq_add_neg] using hex_distance_offset q r (-1) 1

end TupacWasm

namespace TupacWasm

/-! ### Paths through a coordinate set

Specification-side notion of a unit-cost path whose cells all lie in a
coordinate set `R`, under the 6-neighbor hex adjacency of
`get_hex_neighbors`. -/

/-- Hex adjacency: `b` is one of the 6 axial neighbors of `a`. -/
def hexAdj (a b : Coord) : Prop := b ∈ get_hex_neighbors a

instance (a b : Coord) : Decidable (hexAdj a b) := by
  unfold hexAdj; infer_instance

/-- A path of `n` unit steps from `a` to `b` whose vertices all lie in `R`. -/
inductive PathIn (R : Finset Coord) : Coord → Coord → ℕ → Prop where
  | nil : ∀ {a}, a ∈ R → PathIn R a a 0
  | cons : ∀ {a b c n}, a ∈ R → hexAdj a b → PathIn R b c n → PathIn R a c (n + 1)

/-- `a` can reach `b` through cells of `R`. -/
def Reach (R : Finset Coord) (a b : Coord) : Prop := ∃ n, PathIn R a b n

/-- `n` is the length of a shortest path from `a` to `b` through `R`. -/
def MinPath (R : Finset Coord) (a b : Coord) (n : ℕ) : Prop :=
  PathIn R a b n ∧ ∀ m, PathIn R a b m → n ≤ m

theorem PathIn.mem_left {R : Finset Coord} {a b : Coord} {n : ℕ}
    (h : PathIn R a b n) : a ∈ R := by
  cases h with
  | nil ha => exact ha
  | cons ha _ _ => exact ha

theorem PathIn.mem_right {R : Finset Coord} {a b : Coord} {n : ℕ}
    (h : PathIn R a b n) : b ∈ R := by
  induction h with
  | nil ha => exact ha
  | cons _ _ _ ih => exact ih

theorem PathIn.eq_of_zero {R : Finset Coord} {a b : Coord}
    (h : PathIn R a b 0) : a = b := by
  cases h; rfl

theorem PathIn.append {R : Finset Coord} {a b c : Coord} {n m : ℕ}
    (h1 : PathIn R a b n) (h2 : PathIn R b c m) : PathIn R a c (n + m) := by
  induction h1 with
  | nil _ => simpa using h2
  | cons ha hadj _ ih => simpa [Nat.add_right_comm] using PathIn.cons ha hadj (ih h2)

theorem PathIn.snoc {R : Finset Coord} {a b c : Coord} {n : ℕ}
    (h : PathIn R a b n) (hadj : hexAdj b c) (hc : c ∈ R) :
    PathIn R a c (n + 1) :=
  h.append (PathIn.cons h.mem_right hadj (PathIn.nil hc))

theorem hexAdj_symm {a b : Coord} (h : hexAdj a b) : hexAdj b a := by
  obtain ⟨q, r⟩ := a
  simp only [hexAdj, get_hex_neighbors, List.mem_cons, List.not_mem_nil,
    or_false] at h ⊢
  rcases h with h | h | h | h | h | h <;> subst h <;>
    simp [Prod.ext_iff] <;> omega

theorem PathIn.rev {R : Finset Coord} {a b : Coord} {n : ℕ}
    (h : PathIn R a b n) : PathIn R b a n := by
  induction h with
  | nil ha => exact PathIn.nil ha
  | cons ha hadj _ ih => exact ih.snoc (hexAdj_symm hadj) ha

theorem Reach.refl {R : Finset Coord} {a : Coord} (ha : a ∈ R) : Reach R a a :=
  ⟨0, PathIn.nil ha⟩

theorem Reach.symm {R : Finset Coord} {a b : Coord} (h : Reach R a b) :
    Reach R b a := by
  obtain ⟨n, hp⟩ := h
  exact ⟨n, hp.rev⟩

theorem Reach.trans {R : Finset Coord} {a b c : Coord} (h1 : Reach R a b)
    (h2 : Reach R b c) : Reach R a c := by
  obtain ⟨n, hp1⟩ := h1
  obtain ⟨m, hp2⟩ := h2
  exact ⟨n + m, hp1.append hp2⟩

/-- Shortest path lengths exist for any reachable pair. -/
theorem Reach.exists_minPath {R : Finset Coord} {a b : Coord}
    (h : Reach R a b) : ∃ n, MinPath R a b n := by
  classical
  obtain ⟨n, hp⟩ := h
  have hex : ∃ m, PathIn R a b m := ⟨n, hp⟩
  refine ⟨Nat.find hex, Nat.find_spec hex, ?_⟩
  intro m hm
  exact Nat.find_min' hex hm

theorem MinPath.unique {R : Finset Coord} {a b : Coord} {n m : ℕ}
    (h1 : MinPath R a b n) (h2 : MinPath R a b m) : n = m :=
  le_antisymm (h1.2 m h2.1) (h2.2 n h1.1)

/-- The hex metric lower-bounds graph path length. -/
theorem PathIn.hex_distance_le {R : Finset Coord} {a b : Coord} {n : ℕ}
    (h : PathIn R a b n) : hex_distance a.1 a.2 b.1 b.2 ≤ (n : ℤ) := by
  induction h with
  | nil _ => simp [hex_distance_self]
  | @cons x y z m _ hadj _ ih =>
    have htri := hex_distance_triangle x y z
    have hone := hex_distance_adjacent hadj
    push_cast
    omega

end TupacWasm

namespace TupacWasm

/-! ### A* pathfinding embedding

Embeds `hex_astar_path` (source lines 237-310) and `hex_astar`
(source lines 326-449).  The two Rust functions run the same loop; they
differ only in that
* `hex_astar_path` computes the heuristic with `hex_distance` while
  `hex_astar` computes it with `cube_distance` over `axial_to_cube`
  (pointwise equal, see `hex_distance_eq_cube_distance`), and
* `hex_astar_path` does not keep the `parents` hash map (its nodes still
  carry the parent fields but nothing reads them), while `hex_astar`
  records parents for path reconstruction.
We therefore embed a single loop, parameterized by the heuristic and always
carrying the `parents` map; for `hex_astar_path` the map is write-only ghost
state that the returned distance does not depend on.

The Rust `BinaryHeap` pops a node minimal in `(f, h)` (the reversed `Ord` of
lines 111-117); among nodes with equal `(f, h)` its choice is unspecified, so
the embedding resolves the choice as "first pushed among the minimal"
(`popMin` below picks the leftmost minimal element of the list of live heap
entries).  Every theorem proved about the search result is independent of
this resolution.

The `while let Some(current) = open_set.pop()` loop is embedded with an
explicit fuel argument; `astar_fuel` below is provably larger than the
number of loop iterations, so the fuel-exhaustion branch is unreachable. -/

/-- A* node (source lines 87-95), with `f = g + h` maintained by
`AStarNode.new` (source lines 98-108). -/
structure AStarNode where
  q : ℤ
  r : ℤ
  g : ℕ
  h : ℕ
  f : ℕ
  parent_q : ℤ
  parent_r : ℤ
deriving DecidableEq, Repr

/-- Embeds `AStarNode::new` (source lines 98-108). -/
def AStarNode.new (q r : ℤ) (g h : ℕ) (pq pr : ℤ) : AStarNode :=
  ⟨q, r, g, h, g + h, pq, pr⟩

/-- The coordinate key of a node. -/
def AStarNode.key (n : AStarNode) : Coord := (n.q, n.r)

/-- Pop a node minimal in `(f, h)` from the list of live heap entries,
returning it plus the rest.  Leftmost-minimal resolves the `BinaryHeap`
tie choice. -/
def popMin : List AStarNode → Option (AStarNode × List AStarNode)
  | [] => none
  | x :: xs =>
    match popMin xs with
    | none => some (x, [])
    | some (m, rest) =>
      if m.f < x.f ∨ (m.f = x.f ∧ m.h < x.h) then some (m, x :: rest)
      else some (x, xs)

/-- The mutable state of the neighbor-relaxation loop:
open list, `g_scores` map, `parents` map. -/
abbrev RelaxState := List AStarNode × (Coord → Option ℕ) × (Coord → Option Coord)

/-- Embeds one iteration of the neighbor loop (source lines 281-305 /
419-444): skip non-members of the traversable set, skip closed cells,
otherwise relax: if the tentative `g` improves on the recorded `g_score`
(absent = `i32::MAX`), record it, record the parent, and push a node. -/
def relaxOne (R : Finset Coord) (closed : Finset Coord) (cur : AStarNode)
    (hfun : Coord → ℕ) (st : RelaxState) (nb : Coord) : RelaxState :=
  if nb ∉ R then st
  else if nb ∈ closed then st
  else
    let tg := cur.g + 1
    let improves : Bool := match st.2.1 nb with
      | none => true
      | some v => decide (tg < v)
    if improves then
      (AStarNode.new nb.1 nb.2 tg (hfun nb) cur.q cur.r :: st.1,
       fun k => if k = nb then some tg else st.2.1 k,
       fun k => if k = nb then some (cur.q, cur.r) else st.2.2 k)
    else st

/-- Embeds the `while let Some(current) = open_set.pop()` loop shared by the
two A* functions (source lines 264-306 / 367-445).  Returns the popped goal
`g`-cost plus the `parents` map at that moment, or `none` when the open set
empties (no path).  The `0` fuel case is unreachable for the fuel supplied by
the entry points. -/
def astarLoop (R : Finset Coord) (goal : Coord) (hfun : Coord → ℕ) :
    ℕ → List AStarNode → Finset Coord → (Coord → Option ℕ) →
    (Coord → Option Coord) → Option (ℕ × (Coord → Option Coord))
  | 0, _, _, _, _ => none
  | fuel + 1, opn, closed, gs, par =>
    match popMin opn with
    | none => none
    | some (cur, rest) =>
      if cur.key ∈ closed then
        astarLoop R goal hfun fuel rest closed gs par
      else
        let closed' := insert cur.key closed
        if cur.key = goal then some (cur.g, par)
        else
          let st := (get_hex_neighbors cur.key).foldl
            (relaxOne R closed' cur hfun) (rest, gs, par)
          astarLoop R goal hfun fuel st.1 closed' st.2.1 st.2.2

/-- Fuel bound: strictly more than the number of possible loop iterations
(1 initial push plus at most 6 pushes per settled cell, each iteration
popping one pushed entry). -/
def astar_fuel (R : Finset Coord) : ℕ := 6 * R.card + 2

/-- Heuristic used by `hex_astar_path`: `hex_distance` to the goal
(source line 302). -/
def hexHeuristic (goal : Coord) (c : Coord) : ℕ :=
  (hex_distance c.1 c.2 goal.1 goal.2).toNat

/-- Heuristic used by `hex_astar`: `cube_distance` of the cube forms
(source lines 351-354). -/
def cubeHeuristic (goal : Coord) (c : Coord) : ℕ :=
  (cube_distance (axial_to_cube c.1 c.2) (axial_to_cube goal.1 goal.2)).toNat

theorem cubeHeuristic_eq_hexHeuristic (goal : Coord) :
    cubeHeuristic goal = hexHeuristic goal := by
  funext c
  unfold cubeHeuristic hexHeuristic
  rw [hex_distance_eq_cube_distance]

/-- Embeds `hex_astar_path` (source lines 237-310): `-1` when start or goal
is not a road, `0` when they coincide, else run the A* loop and return the
goal's `g`-cost, `-1` when the open set empties. -/
def hex_astar_path (start_q start_r goal_q goal_r : ℤ)
    (roads : Finset Coord) : ℤ :=
  if (start_q, start_r) ∉ roads ∨ (goal_q, goal_r) ∉ roads then -1
  else if start_q = goal_q ∧ start_r = goal_r then 0
  else
    let h_start := hexHeuristic (goal_q, goal_r) (start_q, start_r)
    match astarLoop roads (goal_q, goal_r) (hexHeuristic (goal_q, goal_r))
        (astar_fuel roads)
        [AStarNode.new start_q start_r 0 h_start start_q start_r] ∅
        (fun k => if k = (start_q, start_r) then some 0 else none)
        (fun _ => none) with
    | some (n, _) => (n : ℤ)
    | none => -1

/-- Embeds the path-reconstruction loop of `hex_astar`
(source lines 380-403): follow parent pointers from the goal, append the
start when the parent is the start (or defensively when a parent is
missing), producing the goal-to-start sequence.  Fuel (`returned g + 1`)
is provably enough for the parent chain produced by the search. -/
def reconstructPath (par : Coord → Option Coord) (start : Coord) :
    ℕ → Coord → List Coord → List Coord
  | 0, _, acc => acc
  | fuel + 1, node, acc =>
    let acc' := acc ++ [node]
    match par node with
    | some p => if p = start then acc' ++ [start]
                else reconstructPath par start fuel p acc'
    | none => if node = start then acc' else acc' ++ [start]

/-- Embeds `hex_astar` (source lines 326-449) at the level of the decoded
coordinate list: `none` stands for the returned string `"null"`, and
`some path` for the JSON array of the path's coordinates in start-to-goal
order (the JSON encoding itself is embedded separately for the claims that
are about the wire strings). -/
def hex_astar (start_q start_r goal_q goal_r : ℤ)
    (valid_terrain : Finset Coord) : Option (List Coord) :=
  if (start_q, start_r) ∉ valid_terrain ∨ (goal_q, goal_r) ∉ valid_terrain then
    none
  else if start_q = goal_q ∧ start_r = goal_r then some [(start_q, start_r)]
  else
    match astarLoop valid_terrain (goal_q, goal_r)
        (cubeHeuristic (goal_q, goal_r)) (astar_fuel valid_terrain)
        [AStarNode.new start_q start_r 0
          (cubeHeuristic (goal_q, goal_r) (start_q, start_r)) start_q start_r]
        ∅ (fun k => if k = (start_q, start_r) then some 0 else none)
        (fun _ => none) with
    | some (n, par) =>
      some ((reconstructPath par (start_q, start_r) (n + 1)
        (goal_q, goal_r) []).reverse)
    | none => none

end TupacWasm

namespace TupacWasm

/-! ### A* correctness: priority-pop lemmas -/

theorem popMin_eq_none {l : List AStarNode} : popMin l = none ↔ l = [] := by
  cases l with
  | nil => simp [popMin]
  | cons x xs =>
    simp only [popMin]
    cases h : popMin xs with
    | none => simp
    | some p =>
      obtain ⟨m, rest⟩ := p
      by_cases hc : m.f < x.f ∨ (m.f = x.f ∧ m.h < x.h) <;> simp [hc]

theorem popMin_perm {l : List AStarNode} {m : AStarNode} {rest : List AStarNode}
    (h : popMin l = some (m, rest)) : l.Perm (m :: rest) := by
  induction l generalizing m rest with
  | nil => simp [popMin] at h
  | cons x xs ih =>
    simp only [popMin] at h
    cases hxs : popMin xs with
    | none =>
      rw [hxs] at h
      have hempty : xs = [] := popMin_eq_none.mp hxs
      subst hempty
      simp at h
      obtain ⟨rfl, rfl⟩ := h
      exact List.Perm.refl _
    | some p =>
      obtain ⟨m', rest'⟩ := p
      rw [hxs] at h
      by_cases hc : m'.f < x.f ∨ (m'.f = x.f ∧ m'.h < x.h)
      · simp only [if_pos hc, Option.some.injEq, Prod.mk.injEq] at h
        obtain ⟨rfl, rfl⟩ := h
        exact ((ih hxs).cons x).trans (List.Perm.swap m' x rest')
      · simp only [if_neg hc, Option.some.injEq, Prod.mk.injEq] at h
        obtain ⟨rfl, rfl⟩ := h
        exact List.Perm.refl _

theorem popMin_min_f {l : List AStarNode} {m : AStarNode} {rest : List AStarNode}
    (h : popMin l = some (m, rest)) : ∀ e ∈ l, m.f ≤ e.f := by
  induction l generalizing m rest with
  | nil => simp [popMin] at h
  | cons x xs ih =>
    simp only [popMin] at h
    cases hxs : popMin xs with
    | none =>
      rw [hxs] at h
      have hempty : xs = [] := popMin_eq_none.mp hxs
      subst hempty
      simp at h
      obtain ⟨rfl, _⟩ := h
      intro e he
      simp at he
      subst he
      exact le_refl _
    | some p =>
      obtain ⟨m', rest'⟩ := p
      rw [hxs] at h
      by_cases hc : m'.f < x.f ∨ (m'.f = x.f ∧ m'.h < x.h)
      · simp only [if_pos hc, Option.some.injEq, Prod.mk.injEq] at h
        obtain ⟨rfl, rfl⟩ := h
        intro e he
        rcases List.mem_cons.mp he with rfl | he'
        · rcases hc with hlt | ⟨heq, _⟩
          · exact le_of_lt hlt
          · exact le_of_eq heq
        · exact ih hxs e he'
      · simp only [if_neg hc, Option.some.injEq, Prod.mk.injEq] at h
        obtain ⟨rfl, rfl⟩ := h
        intro e he
        rcases List.mem_cons.mp he with rfl | he'
        · exact le_refl _
        · have h1 : m'.f ≤ e.f := ih hxs e he'
          have h2 : x.f ≤ m'.f := by
            push_neg at hc
            exact hc.1
          exact le_trans h2 h1

/-! ### A* correctness: the state invariant -/

/-- Invariant of the A* loop state for start `s`, goal `goal`,
traversable set `R` and heuristic `hfun`. -/
structure AInv (R : Finset Coord) (s goal : Coord) (hfun : Coord → ℕ)
    (opn : List AStarNode) (closed : Finset Coord)
    (gs : Coord → Option ℕ) (par : Coord → Option Coord) : Prop where
  closed_sub : ∀ c ∈ closed, c ∈ R
  goal_not_closed : goal ∉ closed
  settled : ∀ c ∈ closed, ∃ v, gs c = some v ∧ MinPath R s c v
  open_keys : ∀ e ∈ opn, e.key ∈ R ∧ PathIn R s e.key e.g ∧
    e.h = hfun e.key ∧ e.f = e.g + e.h
  gs_le_open : ∀ e ∈ opn, ∃ v, gs e.key = some v ∧ v ≤ e.g
  gs_path : ∀ k v, gs k = some v → k ∈ R ∧ PathIn R s k v
  gs_open : ∀ k v, k ∉ closed → gs k = some v → ∃ e ∈ opn, e.key = k ∧ e.g ≤ v
  frontier : ∀ c ∈ closed, ∀ z ∈ get_hex_neighbors c, z ∈ R → z ∉ closed →
    ∃ dc, MinPath R s c dc ∧ ∃ e ∈ opn, e.key = z ∧ e.g ≤ dc + 1
  start_mem : s ∈ closed ∨ ∃ e ∈ opn, e.key = s ∧ e.g = 0
  gs_s : gs s = some 0
  par_s : par s = none
  par_spec : ∀ k p, par k = some p → p ∈ closed ∧ k ∈ R ∧ hexAdj p k ∧
    ∃ dp, MinPath R s p dp ∧ gs k = some (dp + 1)
  par_iff : ∀ k, k ≠ s → ((par k).isSome ↔ (gs k).isSome)

/-- Heuristic consistency: one hex step changes the heuristic by at most 1. -/
def Consistent (hfun : Coord → ℕ) : Prop :=
  ∀ a b : Coord, hexAdj a b → hfun a ≤ hfun b + 1

theorem hexHeuristic_consistent (goal : Coord) : Consistent (hexHeuristic goal) := by
  intro a b hadj
  unfold hexHeuristic
  have htri := hex_distance_triangle a b goal
  have hone := hex_distance_adjacent hadj
  have h1 := hex_distance_nonneg a.1 a.2 goal.1 goal.2
  have h2 := hex_distance_nonneg b.1 b.2 goal.1 goal.2
  omega

/-- Along a path, the heuristic drops by at most the path length. -/
theorem Consistent.le_of_path {hfun : Coord → ℕ} (hc : Consistent hfun)
    {R : Finset Coord} {a b : Coord} {n : ℕ} (hp : PathIn R a b n) :
    hfun a ≤ hfun b + n := by
  induction hp with
  | nil _ => simp
  | cons _ hadj _ ih =>
    have := hc _ _ hadj
    omega

end TupacWasm

namespace TupacWasm

/-! ### A* correctness: cover and pop-optimality -/

/-- Any path from a settled cell to an unsettled cell is covered by an open
entry: some open node sits on the path with compatible cost. -/
theorem AInv.frontier_path {R : Finset Coord} {s goal : Coord} {hfun : Coord → ℕ}
    {opn : List AStarNode} {closed : Finset Coord} {gs : Coord → Option ℕ}
    {par : Coord → Option Coord}
    (inv : AInv R s goal hfun opn closed gs par) :
    ∀ {c t : Coord} {L : ℕ}, PathIn R c t L → ∀ dc : ℕ, c ∈ closed →
      MinPath R s c dc → t ∉ closed →
      ∃ e ∈ opn, ∃ L2, PathIn R e.key t L2 ∧ e.g + L2 ≤ dc + L := by
  intro c t L hp
  induction hp with
  | nil _ =>
    intro dc hc _ ht
    exact absurd hc ht
  | @cons a z t' n _ hadj hp ih =>
    intro dc hc hmin ht
    have hzR : z ∈ R := hp.mem_left
    by_cases hz : z ∈ closed
    · obtain ⟨vz, _, hminz⟩ := inv.settled z hz
      have hle : vz ≤ dc + 1 := hminz.2 _ (hmin.1.snoc hadj hzR)
      obtain ⟨e, he, L2, hpL2, hsum⟩ := ih vz hz hminz ht
      exact ⟨e, he, L2, hpL2, by omega⟩
    · obtain ⟨dc', hmin', e, he, hkey, hg⟩ := inv.frontier a hc z hadj hzR hz
      have hdc : dc' = dc := hmin'.unique hmin
      refine ⟨e, he, n, ?_, by omega⟩
      rw [hkey]
      exact hp

/-- Any path from the start to an unsettled cell is covered by an open entry. -/
theorem AInv.cover {R : Finset Coord} {s goal : Coord} {hfun : Coord → ℕ}
    {opn : List AStarNode} {closed : Finset Coord} {gs : Coord → Option ℕ}
    {par : Coord → Option Coord}
    (inv : AInv R s goal hfun opn closed gs par) (hs : s ∈ R) :
    ∀ {t : Coord} {L : ℕ}, PathIn R s t L → t ∉ closed →
      ∃ e ∈ opn, ∃ L2, PathIn R e.key t L2 ∧ e.g + L2 ≤ L := by
  intro t L hp ht
  rcases inv.start_mem with hsc | ⟨e0, he0, hkey, hg⟩
  · have hmin : MinPath R s s 0 := ⟨PathIn.nil hs, fun m _ => Nat.zero_le m⟩
    obtain ⟨e, he, L2, h1, h2⟩ := inv.frontier_path hp 0 hsc hmin ht
    exact ⟨e, he, L2, h1, by omega⟩
  · refine ⟨e0, he0, L, ?_, by omega⟩
    rw [hkey]
    exact hp

/-- When a node with an unsettled key is popped, its `g` is the shortest
path length to its key: the A* optimality argument, using consistency of
the heuristic and minimality of the popped `(f, h)`. -/
theorem AInv.pop_optimal {R : Finset Coord} {s goal : Coord} {hfun : Coord → ℕ}
    {opn : List AStarNode} {closed : Finset Coord} {gs : Coord → Option ℕ}
    {par : Coord → Option Coord}
    (inv : AInv R s goal hfun opn closed gs par) (hs : s ∈ R)
    (hcons : Consistent hfun) {m : AStarNode} {rest : List AStarNode}
    (hpop : popMin opn = some (m, rest)) (hmk : m.key ∉ closed) :
    MinPath R s m.key m.g := by
  have hmem : m ∈ opn := (popMin_perm hpop).mem_iff.mpr (List.mem_cons_self _ _)
  obtain ⟨hkR, hpath, hh, hf⟩ := inv.open_keys m hmem
  refine ⟨hpath, ?_⟩
  intro L hL
  obtain ⟨e, he, L2, hpe, hsum⟩ := inv.cover hs hL hmk
  have hfle : m.f ≤ e.f := popMin_min_f hpop e he
  obtain ⟨_, _, heh, hef⟩ := inv.open_keys e he
  have hcle : hfun e.key ≤ hfun m.key + L2 := hcons.le_of_path hpe
  omega

/-- When a node with an unsettled key is popped, the recorded `g_score` of
its key equals the popped `g` (and is optimal). -/
theorem AInv.pop_gs {R : Finset Coord} {s goal : Coord} {hfun : Coord → ℕ}
    {opn : List AStarNode} {closed : Finset Coord} {gs : Coord → Option ℕ}
    {par : Coord → Option Coord}
    (inv : AInv R s goal hfun opn closed gs par) (hs : s ∈ R)
    (hcons : Consistent hfun) {m : AStarNode} {rest : List AStarNode}
    (hpop : popMin opn = some (m, rest)) (hmk : m.key ∉ closed) :
    gs m.key = some m.g := by
  have hmem : m ∈ opn := (popMin_perm hpop).mem_iff.mpr (List.mem_cons_self _ _)
  obtain ⟨v, hgv, hvle⟩ := inv.gs_le_open m hmem
  obtain ⟨_, hvpath⟩ := inv.gs_path _ _ hgv
  have hopt := inv.pop_optimal hs hcons hpop hmk
  have hle : m.g ≤ v := hopt.2 v hvpath
  have : v = m.g := le_antisymm hvle hle
  rw [hgv, this]

/-! ### A* correctness: invariant preservation -/

/-- Popping a node whose key is already closed preserves the invariant on
the remaining open list (source lines 268-270 / 371-373). -/
theorem AInv.skip {R : Finset Coord} {s goal : Coord} {hfun : Coord → ℕ}
    {opn : List AStarNode} {closed : Finset Coord} {gs : Coord → Option ℕ}
    {par : Coord → Option Coord}
    (inv : AInv R s goal hfun opn closed gs par) {m : AStarNode}
    {rest : List AStarNode} (hpop : popMin opn = some (m, rest))
    (hmk : m.key ∈ closed) : AInv R s goal hfun rest closed gs par := by
  have hperm := popMin_perm hpop
  have hmemr : ∀ e ∈ rest, e ∈ opn := fun e he =>
    hperm.symm.subset (List.mem_cons_of_mem _ he)
  have hmem_of : ∀ e ∈ opn, e = m ∨ e ∈ rest := fun e he =>
    List.mem_cons.mp (hperm.subset he)
  refine ⟨inv.closed_sub, inv.goal_not_closed, inv.settled,
    fun e he => inv.open_keys e (hmemr e he),
    fun e he => inv.gs_le_open e (hmemr e he),
    inv.gs_path, ?_, ?_, ?_, inv.gs_s, inv.par_s, inv.par_spec, inv.par_iff⟩
  · intro k v hk hgk
    obtain ⟨e, he, hkey, hg⟩ := inv.gs_open k v hk hgk
    rcases hmem_of e he with rfl | her
    · exact absurd (hkey ▸ hmk) hk
    · exact ⟨e, her, hkey, hg⟩
  · intro c hc z hz hzR hznc
    obtain ⟨dc, hmin, e, he, hkey, hg⟩ := inv.frontier c hc z hz hzR hznc
    rcases hmem_of e he with rfl | her
    · exact absurd (hkey ▸ hmk) hznc
    · exact ⟨dc, hmin, e, her, hkey, hg⟩
  · rcases inv.start_mem with h | ⟨e, he, hkey, hg⟩
    · exact Or.inl h
    · rcases hmem_of e he with rfl | her
      · exact Or.inl (hkey ▸ hmk)
      · exact Or.inr ⟨e, her, hkey, hg⟩

end TupacWasm

namespace TupacWasm

/-- Case analysis for one neighbor-relaxation step: either the state is
unchanged (non-member, closed, or no improvement), or the neighbor is
relaxed: node pushed, `g_score` and parent recorded. -/
theorem relaxOne_cases (R cl : Finset Coord) (cur : AStarNode)
    (hfun : Coord → ℕ) (st : RelaxState) (nb : Coord) :
    (relaxOne R cl cur hfun st nb = st ∧
      (nb ∉ R ∨ nb ∈ cl ∨ ∃ v, st.2.1 nb = some v ∧ ¬ cur.g + 1 < v)) ∨
    (nb ∈ R ∧ nb ∉ cl ∧
      (st.2.1 nb = none ∨ ∃ v, st.2.1 nb = some v ∧ cur.g + 1 < v) ∧
      relaxOne R cl cur hfun st nb =
        (AStarNode.new nb.1 nb.2 (cur.g + 1) (hfun nb) cur.q cur.r :: st.1,
         fun x => if x = nb then some (cur.g + 1) else st.2.1 x,
         fun x => if x = nb then some (cur.q, cur.r) else st.2.2 x)) := by
  unfold relaxOne
  by_cases h1 : nb ∈ R
  · rw [if_neg (not_not_intro h1)]
    by_cases h2 : nb ∈ cl
    · rw [if_pos h2]
      exact Or.inl ⟨rfl, Or.inr (Or.inl h2)⟩
    · rw [if_neg h2]
      cases hgs : st.2.1 nb with
      | none =>
        right
        refine ⟨h1, h2, Or.inl rfl, ?_⟩
        simp [hgs]
      | some v =>
        by_cases h3 : cur.g + 1 < v
        · right
          refine ⟨h1, h2, Or.inr ⟨v, rfl, h3⟩, ?_⟩
          simp [hgs, h3]
        · left
          refine ⟨?_, Or.inr (Or.inr ⟨v, rfl, h3⟩)⟩
          simp [hgs, h3]
  · rw [if_pos h1]
    exact Or.inl ⟨rfl, Or.inl h1⟩

theorem relaxOne_cases_stuck (R cl : Finset Coord) (cur : AStarNode)
    (hfun : Coord → ℕ) (st : RelaxState) (nb : Coord)
    (h : nb ∈ R → nb ∈ cl ∨ ∃ v, st.2.1 nb = some v ∧ ¬ cur.g + 1 < v) :
    relaxOne R cl cur hfun st nb = st := by
  rcases relaxOne_cases R cl cur hfun st nb with ⟨heq, _⟩ | ⟨h1, h2, h3, _⟩
  · exact heq
  · rcases h h1 with hcl | ⟨v, hv, hnlt⟩
    · exact absurd hcl h2
    · rcases h3 with hnone | ⟨v', hv', hlt⟩
      · rw [hv] at hnone; cases hnone
      · rw [hv] at hv'
        cases hv'
        exact absurd hlt hnlt

/-- Membership in the open list is preserved by a relaxation step. -/
theorem relaxOne_mem {R cl : Finset Coord} {cur : AStarNode}
    {hfun : Coord → ℕ} {st : RelaxState} {nb : Coord} {e : AStarNode}
    (he : e ∈ st.1) : e ∈ (relaxOne R cl cur hfun st nb).1 := by
  rcases relaxOne_cases R cl cur hfun st nb with ⟨heq, _⟩ | ⟨_, _, _, heq⟩ <;>
    rw [heq]
  · exact he
  · exact List.mem_cons_of_mem _ he

theorem relaxOne_length (R cl : Finset Coord) (cur : AStarNode)
    (hfun : Coord → ℕ) (st : RelaxState) (nb : Coord) :
    (relaxOne R cl cur hfun st nb).1.length ≤ st.1.length + 1 := by
  rcases relaxOne_cases R cl cur hfun st nb with ⟨heq, _⟩ | ⟨_, _, _, heq⟩ <;>
    rw [heq]
  · omega
  · simp

theorem relaxFold_length (R cl : Finset Coord) (cur : AStarNode)
    (hfun : Coord → ℕ) : ∀ (l : List Coord) (st : RelaxState),
    (l.foldl (relaxOne R cl cur hfun) st).1.length ≤ st.1.length + l.length := by
  intro l
  induction l with
  | nil => intro st; simp
  | cons x xs ih =>
    intro st
    have h1 := relaxOne_length R cl cur hfun st x
    have h2 := ih (relaxOne R cl cur hfun st x)
    simp only [List.foldl_cons, List.length_cons]
    omega

/-- Invariant of the neighbor-relaxation fold while settling key `k` at
optimal cost `dk`: all `AInv` fields relative to the enlarged closed set,
with the frontier obligation for `k` restricted to already-processed
neighbors. -/
structure RelaxInv (R : Finset Coord) (s goal : Coord) (hfun : Coord → ℕ)
    (k : Coord) (dk : ℕ) (closed' : Finset Coord) (processed : List Coord)
    (st : RelaxState) : Prop where
  closed_sub : ∀ c ∈ closed', c ∈ R
  goal_not_closed : goal ∉ closed'
  settled : ∀ c ∈ closed', ∃ v, st.2.1 c = some v ∧ MinPath R s c v
  open_keys : ∀ e ∈ st.1, e.key ∈ R ∧ PathIn R s e.key e.g ∧
    e.h = hfun e.key ∧ e.f = e.g + e.h
  gs_le_open : ∀ e ∈ st.1, ∃ v, st.2.1 e.key = some v ∧ v ≤ e.g
  gs_path : ∀ x v, st.2.1 x = some v → x ∈ R ∧ PathIn R s x v
  gs_open : ∀ x v, x ∉ closed' → st.2.1 x = some v →
    ∃ e ∈ st.1, e.key = x ∧ e.g ≤ v
  frontier_p : ∀ c ∈ closed', ∀ z ∈ get_hex_neighbors c, z ∈ R →
    z ∉ closed' → (c = k → z ∈ processed) →
    ∃ dc, MinPath R s c dc ∧ ∃ e ∈ st.1, e.key = z ∧ e.g ≤ dc + 1
  start_mem : s ∈ closed' ∨ ∃ e ∈ st.1, e.key = s ∧ e.g = 0
  gs_s : st.2.1 s = some 0
  par_s : st.2.2 s = none
  par_spec : ∀ x p, st.2.2 x = some p → p ∈ closed' ∧ x ∈ R ∧ hexAdj p x ∧
    ∃ dp, MinPath R s p dp ∧ st.2.1 x = some (dp + 1)
  par_iff : ∀ x, x ≠ s → ((st.2.2 x).isSome ↔ (st.2.1 x).isSome)

end TupacWasm

namespace TupacWasm

/-- One relaxation step preserves the fold invariant, extending the set of
processed neighbors of the cell being settled. -/
theorem RelaxInv.step {R : Finset Coord} {s goal : Coord} {hfun : Coord → ℕ}
    {k : Coord} {dk : ℕ} {closed' : Finset Coord} {processed : List Coord}
    {st : RelaxState}
    (inv : RelaxInv R s goal hfun k dk closed' processed st)
    {cur : AStarNode} (hck : cur.key = k) (hcg : cur.g = dk)
    (hkR : k ∈ R) (hkcl : k ∈ closed') (hkmin : MinPath R s k dk)
    {z : Coord} (hzn : z ∈ get_hex_neighbors k) :
    RelaxInv R s goal hfun k dk closed' (processed ++ [z])
      (relaxOne R closed' cur hfun st z) := by
  rcases relaxOne_cases R closed' cur hfun st z with
    ⟨heq, hwhy⟩ | ⟨hzR, hzcl, himp, heq⟩
  · rw [heq]
    refine ⟨inv.closed_sub, inv.goal_not_closed, inv.settled, inv.open_keys,
      inv.gs_le_open, inv.gs_path, inv.gs_open, ?_, inv.start_mem, inv.gs_s,
      inv.par_s, inv.par_spec, inv.par_iff⟩
    intro c hc z' hz' hz'R hz'cl hfilter
    by_cases hcz : c = k ∧ z' = z
    · obtain ⟨rfl, rfl⟩ := hcz
      rcases hwhy with hnR | hcl | ⟨v, hv, hnlt⟩
      · exact absurd hz'R hnR
      · exact absurd hcl hz'cl
      · obtain ⟨e, he, hkey, hg⟩ := inv.gs_open z' v hz'cl hv
        have hle : e.g ≤ dk + 1 := by omega
        exact ⟨dk, hkmin, e, he, hkey, hle⟩
    · apply inv.frontier_p c hc z' hz' hz'R hz'cl
      intro hceq
      rcases List.mem_append.mp (hfilter hceq) with h | h
      · exact h
      · simp only [List.mem_singleton] at h
        exact absurd ⟨hceq, h⟩ hcz
  · have hadj : hexAdj k z := hzn
    have hzs : z ≠ s := by
      intro hzs
      rcases himp with hnone | ⟨v, hv, hlt⟩
      · rw [hzs, inv.gs_s] at hnone
        cases hnone
      · rw [hzs, inv.gs_s] at hv
        cases hv
        omega
    have hpz : PathIn R s z (cur.g + 1) := by
      rw [hcg]
      exact hkmin.1.snoc hadj hzR
    rw [heq]
    refine ⟨inv.closed_sub, inv.goal_not_closed, ?_, ?_, ?_, ?_, ?_, ?_, ?_,
      ?_, ?_, ?_, ?_⟩
    · -- settled
      intro c hc
      have hcz : c ≠ z := fun h => hzcl (h ▸ hc)
      obtain ⟨v, hv, hmin⟩ := inv.settled c hc
      exact ⟨v, by simpa [hcz] using hv, hmin⟩
    · -- open_keys
      intro e he
      rcases List.mem_cons.mp he with rfl | he'
      · exact ⟨hzR, hpz, rfl, rfl⟩
      · exact inv.open_keys e he'
    · -- gs_le_open
      intro e he
      rcases List.mem_cons.mp he with rfl | he'
      · exact ⟨cur.g + 1, by simp [AStarNode.key, AStarNode.new], le_refl _⟩
      · obtain ⟨v, hv, hle⟩ := inv.gs_le_open e he'
        by_cases hek : e.key = z
        · rcases himp with hnone | ⟨v', hv', hlt⟩
          · rw [hek, hnone] at hv
            cases hv
          · rw [hek, hv'] at hv
            cases hv
            exact ⟨cur.g + 1, by simp [hek], by omega⟩
        · exact ⟨v, by simpa [hek] using hv, hle⟩
    · -- gs_path
      intro x v hx
      by_cases hxz : x = z
      · subst hxz
        simp only [if_pos rfl] at hx
        cases hx
        exact ⟨hzR, hpz⟩
      · exact inv.gs_path x v (by simpa [hxz] using hx)
    · -- gs_open
      intro x v hxcl hx
      by_cases hxz : x = z
      · subst hxz
        simp only [if_pos rfl] at hx
        cases hx
        exact ⟨_, List.mem_cons_self _ _, rfl, le_refl _⟩
      · obtain ⟨e, he, hkey, hg⟩ := inv.gs_open x v hxcl (by simpa [hxz] using hx)
        exact ⟨e, List.mem_cons_of_mem _ he, hkey, hg⟩
    · -- frontier_p
      intro c hc z' hz' hz'R hz'cl hfilter
      by_cases hcz : c = k ∧ z' = z
      · obtain ⟨rfl, rfl⟩ := hcz
        refine ⟨dk, hkmin, _, List.mem_cons_self _ _, rfl, ?_⟩
        show cur.g + 1 ≤ dk + 1
        omega
      · have hold : ∃ dc, MinPath R s c dc ∧
            ∃ e ∈ st.1, e.key = z' ∧ e.g ≤ dc + 1 := by
          apply inv.frontier_p c hc z' hz' hz'R hz'cl
          intro hceq
          rcases List.mem_append.mp (hfilter hceq) with h | h
          · exact h
          · simp only [List.mem_singleton] at h
            exact absurd ⟨hceq, h⟩ hcz
        obtain ⟨dc, hmin, e, he, hkey, hg⟩ := hold
        exact ⟨dc, hmin, e, List.mem_cons_of_mem _ he, hkey, hg⟩
    · -- start_mem
      rcases inv.start_mem with h | ⟨e, he, hkey, hg⟩
      · exact Or.inl h
      · exact Or.inr ⟨e, List.mem_cons_of_mem _ he, hkey, hg⟩
    · -- gs_s
      show (if s = z then some (cur.g + 1) else st.2.1 s) = some 0
      rw [if_neg (fun h => hzs h.symm), inv.gs_s]
    · -- par_s
      show (if s = z then some (cur.q, cur.r) else st.2.2 s) = none
      rw [if_neg (fun h => hzs h.symm), inv.par_s]
    · -- par_spec
      intro x p hx
      by_cases hxz : x = z
      · subst hxz
        simp only [if_pos rfl] at hx
        cases hx
        have hcurk : (cur.q, cur.r) = k := hck
        refine ⟨hcurk ▸ hkcl, hzR, hcurk ▸ hadj, dk, hcurk ▸ hkmin, ?_⟩
        show (if x = x then some (cur.g + 1) else st.2.1 x) = some (dk + 1)
        rw [if_pos rfl, hcg]
      · obtain ⟨h1, h2, h3, dp, h4, h5⟩ :=
          inv.par_spec x p (by simpa [hxz] using hx)
        exact ⟨h1, h2, h3, dp, h4, by simpa [hxz] using h5⟩
    · -- par_iff
      intro x hxs
      by_cases hxz : x = z
      · subst hxz
        simp
      · have := inv.par_iff x hxs
        simpa [hxz] using this

end TupacWasm

namespace TupacWasm

/-- The whole relaxation fold preserves the invariant. -/
theorem RelaxInv.fold {R : Finset Coord} {s goal : Coord} {hfun : Coord → ℕ}
    {k : Coord} {dk : ℕ} {closed' : Finset Coord} {cur : AStarNode}
    (hck : cur.key = k) (hcg : cur.g = dk) (hkR : k ∈ R) (hkcl : k ∈ closed')
    (hkmin : MinPath R s k dk) :
    ∀ (l2 processed : List Coord) (st : RelaxState),
      (∀ z ∈ l2, z ∈ get_hex_neighbors k) →
      RelaxInv R s goal hfun k dk closed' processed st →
      RelaxInv R s goal hfun k dk closed' (processed ++ l2)
        (l2.foldl (relaxOne R closed' cur hfun) st) := by
  intro l2
  induction l2 with
  | nil =>
    intro processed st _ inv
    simpa using inv
  | cons x xs ih =>
    intro processed st hsub inv
    have hstep := inv.step hck hcg hkR hkcl hkmin (hsub x (List.mem_cons_self _ _))
    have := ih (processed ++ [x]) (relaxOne R closed' cur hfun st x)
      (fun z hz => hsub z (List.mem_cons_of_mem _ hz)) hstep
    simpa [List.append_assoc] using this

/-- Establishing the fold invariant right after settling a popped node. -/
theorem RelaxInv.init {R : Finset Coord} {s goal : Coord} {hfun : Coord → ℕ}
    {opn : List AStarNode} {closed : Finset Coord} {gs : Coord → Option ℕ}
    {par : Coord → Option Coord}
    (inv : AInv R s goal hfun opn closed gs par) (hs : s ∈ R)
    (hcons : Consistent hfun) {m : AStarNode} {rest : List AStarNode}
    (hpop : popMin opn = some (m, rest)) (hmk : m.key ∉ closed)
    (hmgoal : m.key ≠ goal) :
    RelaxInv R s goal hfun m.key m.g (insert m.key closed) [] (rest, gs, par) := by
  have hperm := popMin_perm hpop
  have hmem : m ∈ opn := hperm.mem_iff.mpr (List.mem_cons_self _ _)
  have hmemr : ∀ e ∈ rest, e ∈ opn := fun e he =>
    hperm.symm.subset (List.mem_cons_of_mem _ he)
  have hmem_of : ∀ e ∈ opn, e = m ∨ e ∈ rest := fun e he =>
    List.mem_cons.mp (hperm.subset he)
  have hmkR : m.key ∈ R := (inv.open_keys m hmem).1
  have hopt := inv.pop_optimal hs hcons hpop hmk
  have hgsm := inv.pop_gs hs hcons hpop hmk
  refine ⟨?_, ?_, ?_, fun e he => inv.open_keys e (hmemr e he),
    fun e he => inv.gs_le_open e (hmemr e he), inv.gs_path, ?_, ?_, ?_,
    inv.gs_s, inv.par_s, ?_, inv.par_iff⟩
  · intro c hc
    rcases Finset.mem_insert.mp hc with rfl | hc'
    · exact hmkR
    · exact inv.closed_sub c hc'
  · intro hg
    rcases Finset.mem_insert.mp hg with h | h
    · exact hmgoal h.symm
    · exact inv.goal_not_closed h
  · intro c hc
    rcases Finset.mem_insert.mp hc with rfl | hc'
    · exact ⟨m.g, hgsm, hopt⟩
    · exact inv.settled c hc'
  · intro x v hxcl hx
    have hxc : x ∉ closed := fun h => hxcl (Finset.mem_insert_of_mem h)
    have hxm : x ≠ m.key := fun h => hxcl (h ▸ Finset.mem_insert_self _ _)
    obtain ⟨e, he, hkey, hg⟩ := inv.gs_open x v hxc hx
    rcases hmem_of e he with rfl | her
    · exact absurd hkey hxm.symm
    · exact ⟨e, her, hkey, hg⟩
  · intro c hc z hz hzR hzcl hfilter
    rcases Finset.mem_insert.mp hc with rfl | hc'
    · simp at hfilter
    · have hznc : z ∉ closed := fun h => hzcl (Finset.mem_insert_of_mem h)
      have hzm : z ≠ m.key := fun h => hzcl (h ▸ Finset.mem_insert_self _ _)
      obtain ⟨dc, hmin, e, he, hkey, hg⟩ := inv.frontier c hc' z hz hzR hznc
      rcases hmem_of e he with rfl | her
      · exact absurd hkey (fun h => hzm h.symm)
      · exact ⟨dc, hmin, e, her, hkey, hg⟩
  · rcases inv.start_mem with h | ⟨e, he, hkey, hg⟩
    · exact Or.inl (Finset.mem_insert_of_mem h)
    · rcases hmem_of e he with rfl | her
      · exact Or.inl (hkey ▸ Finset.mem_insert_self _ _)
      · exact Or.inr ⟨e, her, hkey, hg⟩
  · intro x p hx
    obtain ⟨h1, h2, h3, dp, h4, h5⟩ := inv.par_spec x p hx
    exact ⟨Finset.mem_insert_of_mem h1, h2, h3, dp, h4, h5⟩

/-- The expansion step (settle the popped node, relax its 6 neighbors)
preserves the loop invariant with the enlarged closed set. -/
theorem AInv.expand {R : Finset Coord} {s goal : Coord} {hfun : Coord → ℕ}
    {opn : List AStarNode} {closed : Finset Coord} {gs : Coord → Option ℕ}
    {par : Coord → Option Coord}
    (inv : AInv R s goal hfun opn closed gs par) (hs : s ∈ R)
    (hcons : Consistent hfun) {m : AStarNode} {rest : List AStarNode}
    (hpop : popMin opn = some (m, rest)) (hmk : m.key ∉ closed)
    (hmgoal : m.key ≠ goal) :
    AInv R s goal hfun
      ((get_hex_neighbors m.key).foldl
        (relaxOne R (insert m.key closed) m hfun) (rest, gs, par)).1
      (insert m.key closed)
      ((get_hex_neighbors m.key).foldl
        (relaxOne R (insert m.key closed) m hfun) (rest, gs, par)).2.1
      ((get_hex_neighbors m.key).foldl
        (relaxOne R (insert m.key closed) m hfun) (rest, gs, par)).2.2 := by
  have hperm := popMin_perm hpop
  have hmem : m ∈ opn := hperm.mem_iff.mpr (List.mem_cons_self _ _)
  have hmkR : m.key ∈ R := (inv.open_keys m hmem).1
  have hopt := inv.pop_optimal hs hcons hpop hmk
  have hinit := RelaxInv.init inv hs hcons hpop hmk hmgoal
  have hfold := @RelaxInv.fold _ _ goal _ _ _ _ _ rfl rfl hmkR
    (Finset.mem_insert_self _ _) hopt (get_hex_neighbors m.key) [] (rest, gs, par)
    (fun z hz => hz) hinit
  simp only [List.nil_append] at hfold
  exact ⟨hfold.closed_sub, hfold.goal_not_closed, hfold.settled,
    hfold.open_keys, hfold.gs_le_open, hfold.gs_path, hfold.gs_open,
    fun c hc z hz hzR hzcl =>
      hfold.frontier_p c hc z hz hzR hzcl (fun hck => hck ▸ hz),
    hfold.start_mem, hfold.gs_s, hfold.par_s, hfold.par_spec, hfold.par_iff⟩

end TupacWasm

namespace TupacWasm

theorem reconstructPath_succ (par : Coord → Option Coord) (s : Coord)
    (fuel : ℕ) (node : Coord) (acc : List Coord) :
    reconstructPath par s (fuel + 1) node acc =
      (match par node with
      | some p => if p = s then (acc ++ [node]) ++ [s]
                  else reconstructPath par s fuel p (acc ++ [node])
      | none => if node = s then acc ++ [node] else (acc ++ [node]) ++ [s]) := rfl

/-- Correctness of parent-pointer path reconstruction: starting from a cell
`k` at optimal distance `d ≥ 1` whose `g_score` is recorded, the loop
produces the goal-to-start cell sequence, of length `d + 1`, fully inside
`R`, with consecutive cells hex-adjacent. -/
theorem reconstruct_spec {R : Finset Coord} {s : Coord}
    {gs : Coord → Option ℕ} {par : Coord → Option Coord} {closed : Finset Coord}
    (hsettled : ∀ c ∈ closed, ∃ v, gs c = some v ∧ MinPath R s c v)
    (hps : ∀ x p, par x = some p → p ∈ closed ∧ x ∈ R ∧ hexAdj p x ∧
      ∃ dp, MinPath R s p dp ∧ gs x = some (dp + 1))
    (hiff : ∀ x, x ≠ s → ((par x).isSome ↔ (gs x).isSome)) :
    ∀ (d : ℕ) (k : Coord) (acc : List Coord), 1 ≤ d → MinPath R s k d →
      gs k = some d →
      ∃ l, reconstructPath par s (d + 1) k acc = acc ++ l ∧
        l.length = d + 1 ∧ l.head? = some k ∧ l.getLast? = some s ∧
        (∀ c ∈ l, c ∈ R) ∧ List.Chain' (fun a b => hexAdj b a) l := by
  intro d
  induction d using Nat.strong_induction_on with
  | _ d ih =>
    intro k acc hd hmin hgs
    have hks : k ≠ s := by
      intro hks
      have h0 : PathIn R s s 0 := PathIn.nil (hks ▸ hmin.1.mem_left)
      have := hmin.2 0 (hks ▸ h0)
      omega
    have hpar : (par k).isSome := (hiff k hks).mpr (by simp [hgs])
    obtain ⟨p, hp⟩ := Option.isSome_iff_exists.mp hpar
    obtain ⟨hpcl, hkR, hadj, dp, hdp, hgs2⟩ := hps k p hp
    have hd_eq : d = dp + 1 := Option.some_inj.mp (hgs.symm.trans hgs2)
    by_cases hpseq : p = s
    · have hdp0 : dp = 0 := by
        have h0 : PathIn R s s 0 := PathIn.nil (hpseq ▸ hdp.1.mem_right)
        have := hdp.2 0 (hpseq ▸ h0)
        omega
      have hd1 : d = 1 := by omega
      refine ⟨[k, s], ?_, by simp [hd1], by simp, by simp, ?_, ?_⟩
      · rw [hd1]
        show reconstructPath par s (1 + 1) k acc = acc ++ [k, s]
        rw [reconstructPath_succ]
        simp [hp, hpseq]
      · intro c hc
        rcases List.mem_cons.mp hc with rfl | hc'
        · exact hkR
        · simp only [List.mem_singleton] at hc'
          subst hc'
          exact hpseq ▸ hdp.1.mem_right
      · simp only [List.chain'_cons, List.chain'_singleton, and_true]
        exact hpseq ▸ hadj
    · have hdp1 : 1 ≤ dp := by
        rcases Nat.eq_zero_or_pos dp with h0 | h
        · rw [h0] at hdp
          exact absurd (hdp.1.eq_of_zero).symm hpseq
        · exact h
      obtain ⟨vp, hgp, hminp⟩ := hsettled p hpcl
      have hvp : vp = dp := hminp.unique hdp
      rw [hvp] at hgp
      obtain ⟨l', heq', hlen', hhead', hlast', hmem', hchain'⟩ :=
        ih dp (by omega) p (acc ++ [k]) hdp1 hdp hgp
      refine ⟨k :: l', ?_, by simp [hlen']; omega, by simp, ?_, ?_, ?_⟩
      · rw [hd_eq]
        show reconstructPath par s (dp + 1 + 1) k acc = acc ++ (k :: l')
        rw [reconstructPath_succ]
        simp only [hp, if_neg hpseq]
        rw [heq']
        simp
      · cases l' with
        | nil => simp at hlen'
        | cons y l'' => simpa using hlast'
      · intro c hc
        rcases List.mem_cons.mp hc with rfl | hc'
        · exact hkR
        · exact hmem' c hc'
      · rw [List.chain'_cons']
        refine ⟨?_, hchain'⟩
        intro y hy
        rw [hhead'] at hy
        simp only [Option.mem_def, Option.some.injEq] at hy
        subst hy
        exact hadj

/-- The initial A* state satisfies the invariant. -/
theorem AInv.initial (R : Finset Coord) (s goal : Coord) (hfun : Coord → ℕ)
    (hs : s ∈ R) :
    AInv R s goal hfun [AStarNode.new s.1 s.2 0 (hfun s) s.1 s.2] ∅
      (fun x => if x = s then some 0 else none) (fun _ => none) := by
  have hkey : (AStarNode.new s.1 s.2 0 (hfun s) s.1 s.2).key = s := rfl
  refine ⟨by simp, by simp, by simp, ?_, ?_, ?_, ?_, by simp, ?_, by simp, rfl,
    by simp, ?_⟩
  · intro e he
    simp only [List.mem_singleton] at he
    subst he
    exact ⟨hs, PathIn.nil hs, rfl, rfl⟩
  · intro e he
    simp only [List.mem_singleton] at he
    subst he
    exact ⟨0, by simp [hkey], le_refl _⟩
  · intro x v hx
    by_cases hxs : x = s
    · subst hxs
      simp only [if_pos rfl] at hx
      cases hx
      exact ⟨hs, PathIn.nil hs⟩
    · simp [hxs] at hx
  · intro x v _ hx
    by_cases hxs : x = s
    · subst hxs
      simp only [if_pos rfl] at hx
      cases hx
      exact ⟨_, List.mem_singleton_self _, hkey, le_refl _⟩
    · simp [hxs] at hx
  · exact Or.inr ⟨_, List.mem_singleton_self _, hkey, rfl⟩
  · intro x hxs
    simp [hxs]

end TupacWasm

namespace TupacWasm

theorem astarLoop_succ (R : Finset Coord) (goal : Coord) (hfun : Coord → ℕ)
    (fuel : ℕ) (opn : List AStarNode) (closed : Finset Coord)
    (gs : Coord → Option ℕ) (par : Coord → Option Coord) :
    astarLoop R goal hfun (fuel + 1) opn closed gs par =
      (match popMin opn with
      | none => none
      | some (cur, rest) =>
        if cur.key ∈ closed then astarLoop R goal hfun fuel rest closed gs par
        else if cur.key = goal then some (cur.g, par)
        else
          astarLoop R goal hfun fuel
            ((get_hex_neighbors cur.key).foldl
              (relaxOne R (insert cur.key closed) cur hfun) (rest, gs, par)).1
            (insert cur.key closed)
            ((get_hex_neighbors cur.key).foldl
              (relaxOne R (insert cur.key closed) cur hfun) (rest, gs, par)).2.1
            ((get_hex_neighbors cur.key).foldl
              (relaxOne R (insert cur.key closed) cur hfun)
              (rest, gs, par)).2.2) := rfl

/-- Main A* loop correctness: with the invariant holding and enough fuel,
a `none` result means the goal is unreachable, and a `some (n, par)` result
means `n` is the shortest path length and the parent map reconstructs a
valid shortest goal-to-start cell sequence. -/
theorem astarLoop_main {R : Finset Coord} {s goal : Coord} {hfun : Coord → ℕ}
    (hcons : Consistent hfun) (hs : s ∈ R) (hsg : s ≠ goal) :
    ∀ (fuel : ℕ) (opn : List AStarNode) (closed : Finset Coord)
      (gs : Coord → Option ℕ) (par : Coord → Option Coord),
      AInv R s goal hfun opn closed gs par →
      opn.length + 6 * (R.card - closed.card) < fuel →
      (astarLoop R goal hfun fuel opn closed gs par = none →
        ∀ L, ¬ PathIn R s goal L) ∧
      (∀ n par', astarLoop R goal hfun fuel opn closed gs par = some (n, par') →
        MinPath R s goal n ∧ 1 ≤ n ∧
        ∃ l, reconstructPath par' s (n + 1) goal [] = l ∧
          l.length = n + 1 ∧ l.head? = some goal ∧ l.getLast? = some s ∧
          (∀ c ∈ l, c ∈ R) ∧ List.Chain' (fun a b => hexAdj b a) l) := by
  intro fuel
  induction fuel with
  | zero =>
    intro opn closed gs par _ hm
    omega
  | succ fuel ih =>
    intro opn closed gs par inv hm
    rw [astarLoop_succ]
    cases hpop : popMin opn with
    | none =>
      have hopn : opn = [] := popMin_eq_none.mp hpop
      constructor
      · intro _ L hL
        obtain ⟨e, he, _⟩ := inv.cover hs hL inv.goal_not_closed
        rw [hopn] at he
        exact absurd he (List.not_mem_nil e)
      · intro n par' hres
        cases hres
    | some pr =>
      obtain ⟨m, rest⟩ := pr
      have hlen : opn.length = rest.length + 1 := by
        have := (popMin_perm hpop).length_eq
        simpa using this
      by_cases hclosed : m.key ∈ closed
      · simp only [if_pos hclosed]
        exact ih rest closed gs par (inv.skip hpop hclosed) (by omega)
      · by_cases hgoal : m.key = goal
        · simp only [if_neg hclosed, if_pos hgoal]
          constructor
          · intro h
            cases h
          · intro n par' hres
            simp only [Option.some.injEq, Prod.mk.injEq] at hres
            obtain ⟨rfl, rfl⟩ := hres
            have hopt : MinPath R s goal m.g :=
              hgoal ▸ inv.pop_optimal hs hcons hpop hclosed
            have hgsg : gs goal = some m.g :=
              hgoal ▸ inv.pop_gs hs hcons hpop hclosed
            have hn1 : 1 ≤ m.g := by
              rcases Nat.eq_zero_or_pos m.g with h0 | h
              · rw [h0] at hopt
                exact absurd hopt.1.eq_of_zero hsg
              · exact h
            obtain ⟨l, heq, hrest⟩ := reconstruct_spec inv.settled
              inv.par_spec inv.par_iff m.g goal [] hn1 hopt hgsg
            exact ⟨hopt, hn1, l, by simpa using heq, hrest⟩
        · simp only [if_neg hclosed, if_neg hgoal]
          have hinv' := inv.expand hs hcons hpop hclosed hgoal
          have hsub : closed ⊆ R := fun c hc => inv.closed_sub c hc
          have hmkR : m.key ∈ R :=
            (inv.open_keys m
              ((popMin_perm hpop).mem_iff.mpr (List.mem_cons_self _ _))).1
          have hcard : closed.card < R.card := by
            apply Finset.card_lt_card
            rw [Finset.ssubset_iff_of_subset hsub]
            exact ⟨m.key, hmkR, hclosed⟩
          have hicard : (insert m.key closed).card = closed.card + 1 :=
            Finset.card_insert_of_not_mem hclosed
          have hflen : ((get_hex_neighbors m.key).foldl
              (relaxOne R (insert m.key closed) m hfun) (rest, gs, par)).1.length ≤
              rest.length + 6 := by
            have := relaxFold_length R (insert m.key closed) m hfun
              (get_hex_neighbors m.key) (rest, gs, par)
            simpa [get_hex_neighbors] using this
          exact ih _ _ _ _ hinv' (by rw [hicard]; omega)

end TupacWasm

namespace TupacWasm

/-- `hex_astar_path` returns the shortest path length when one exists. -/
theorem hex_astar_path_eq_minPath {sq sr gq gr : ℤ} {R : Finset Coord}
    (hsR : (sq, sr) ∈ R) (hgR : (gq, gr) ∈ R) {n : ℕ}
    (hmin : MinPath R (sq, sr) (gq, gr) n) :
    hex_astar_path sq sr gq gr R = (n : ℤ) := by
  unfold hex_astar_path
  rw [if_neg (by simp [hsR, hgR])]
  by_cases heq : sq = gq ∧ sr = gr
  · rw [if_pos heq]
    obtain ⟨rfl, rfl⟩ := heq
    have h0 : MinPath R (sq, sr) (sq, sr) 0 :=
      ⟨PathIn.nil hsR, fun m _ => Nat.zero_le m⟩
    exact_mod_cast h0.unique hmin
  · rw [if_neg heq]
    have hsg : (sq, sr) ≠ (gq, gr) := by
      intro h
      exact heq ⟨congrArg Prod.fst h, congrArg Prod.snd h⟩
    have hmain := astarLoop_main (hexHeuristic_consistent (gq, gr)) hsR hsg
      (astar_fuel R)
      [AStarNode.new sq sr 0 (hexHeuristic (gq, gr) (sq, sr)) sq sr] ∅
      (fun x => if x = (sq, sr) then some 0 else none) (fun _ => none)
      (AInv.initial R (sq, sr) (gq, gr) (hexHeuristic (gq, gr)) hsR)
      (by simp [astar_fuel]; omega)
    cases hres : astarLoop R (gq, gr) (hexHeuristic (gq, gr)) (astar_fuel R)
        [AStarNode.new sq sr 0 (hexHeuristic (gq, gr) (sq, sr)) sq sr] ∅
        (fun x => if x = (sq, sr) then some 0 else none) (fun _ => none) with
    | none =>
      exact absurd hmin.1 (hmain.1 hres n)
    | some pr =>
      obtain ⟨n', par'⟩ := pr
      obtain ⟨hopt, _, _⟩ := hmain.2 n' par' hres
      simp only [hres]
      rw [hopt.unique hmin]

/-- `hex_astar_path` returns `-1` when the goal is unreachable. -/
theorem hex_astar_path_eq_neg_one {sq sr gq gr : ℤ} {R : Finset Coord}
    (hsR : (sq, sr) ∈ R) (hgR : (gq, gr) ∈ R)
    (hnr : ¬ Reach R (sq, sr) (gq, gr)) :
    hex_astar_path sq sr gq gr R = -1 := by
  unfold hex_astar_path
  rw [if_neg (by simp [hsR, hgR])]
  have hsg : ¬ (sq = gq ∧ sr = gr) := by
    rintro ⟨rfl, rfl⟩
    exact hnr (Reach.refl hsR)
  rw [if_neg hsg]
  have hsg' : (sq, sr) ≠ (gq, gr) := by
    intro h
    exact hsg ⟨congrArg Prod.fst h, congrArg Prod.snd h⟩
  have hmain := astarLoop_main (hexHeuristic_consistent (gq, gr)) hsR hsg'
    (astar_fuel R)
    [AStarNode.new sq sr 0 (hexHeuristic (gq, gr) (sq, sr)) sq sr] ∅
    (fun x => if x = (sq, sr) then some 0 else none) (fun _ => none)
    (AInv.initial R (sq, sr) (gq, gr) (hexHeuristic (gq, gr)) hsR)
    (by simp [astar_fuel]; omega)
  cases hres : astarLoop R (gq, gr) (hexHeuristic (gq, gr)) (astar_fuel R)
      [AStarNode.new sq sr 0 (hexHeuristic (gq, gr) (sq, sr)) sq sr] ∅
      (fun x => if x = (sq, sr) then some 0 else none) (fun _ => none) with
  | none => simp [hres]
  | some pr =>
    obtain ⟨n', par'⟩ := pr
    obtain ⟨hopt, _, _⟩ := hmain.2 n' par' hres
    exact absurd ⟨n', hopt.1⟩ hnr

/-- Full behavior of `hex_astar` on a reachable pair: it returns a path,
whose node count is the shortest length plus one, starting at the start,
ending at the goal, staying in the terrain, with hex-adjacent steps, and
`hex_astar_path` returns that same shortest length. -/
theorem hex_astar_some {sq sr gq gr : ℤ} {T : Finset Coord}
    (hsR : (sq, sr) ∈ T) (hgR : (gq, gr) ∈ T)
    (hreach : Reach T (sq, sr) (gq, gr)) :
    ∃ (n : ℕ) (p : List Coord), MinPath T (sq, sr) (gq, gr) n ∧
      hex_astar_path sq sr gq gr T = (n : ℤ) ∧
      hex_astar sq sr gq gr T = some p ∧
      p.length = n + 1 ∧ p.head? = some (sq, sr) ∧
      p.getLast? = some (gq, gr) ∧ (∀ c ∈ p, c ∈ T) ∧
      List.Chain' hexAdj p := by
  obtain ⟨n, hmin⟩ := hreach.exists_minPath
  refine ⟨n, ?_⟩
  by_cases heq : sq = gq ∧ sr = gr
  · obtain ⟨rfl, rfl⟩ := heq
    have h0 : MinPath T (sq, sr) (sq, sr) 0 :=
      ⟨PathIn.nil hsR, fun m _ => Nat.zero_le m⟩
    have hn0 : n = 0 := hmin.unique h0
    subst hn0
    refine ⟨[(sq, sr)], hmin, ?_, ?_, by simp, by simp, by simp, ?_, by simp⟩
    · exact hex_astar_path_eq_minPath hsR hsR hmin
    · unfold hex_astar
      rw [if_neg (by simp [hsR]), if_pos ⟨rfl, rfl⟩]
    · intro c hc
      simp only [List.mem_singleton] at hc
      subst hc
      exact hsR
  · have hsg : (sq, sr) ≠ (gq, gr) := by
      intro h
      exact heq ⟨congrArg Prod.fst h, congrArg Prod.snd h⟩
    have hpath := hex_astar_path_eq_minPath hsR hgR hmin
    have hmain := astarLoop_main (hexHeuristic_consistent (gq, gr)) hsR hsg
      (astar_fuel T)
      [AStarNode.new sq sr 0 (hexHeuristic (gq, gr) (sq, sr)) sq sr] ∅
      (fun x => if x = (sq, sr) then some 0 else none) (fun _ => none)
      (AInv.initial T (sq, sr) (gq, gr) (hexHeuristic (gq, gr)) hsR)
      (by simp [astar_fuel]; omega)
    have hunf : hex_astar sq sr gq gr T =
        (match astarLoop T (gq, gr) (hexHeuristic (gq, gr)) (astar_fuel T)
          [AStarNode.new sq sr 0 (hexHeuristic (gq, gr) (sq, sr)) sq sr] ∅
          (fun x => if x = (sq, sr) then some 0 else none) (fun _ => none) with
        | some (n, par) =>
          some ((reconstructPath par (sq, sr) (n + 1) (gq, gr) []).reverse)
        | none => none) := by
      unfold hex_astar
      rw [if_neg (by simp [hsR, hgR]), if_neg heq,
        cubeHeuristic_eq_hexHeuristic]
    cases hres : astarLoop T (gq, gr) (hexHeuristic (gq, gr)) (astar_fuel T)
        [AStarNode.new sq sr 0 (hexHeuristic (gq, gr) (sq, sr)) sq sr] ∅
        (fun x => if x = (sq, sr) then some 0 else none) (fun _ => none) with
    | none =>
      exact absurd hmin.1 (hmain.1 hres n)
    | some pr =>
      obtain ⟨n', par'⟩ := pr
      obtain ⟨hopt, hn1, l, hl, hllen, hlhead, hllast, hlmem, hlchain⟩ :=
        hmain.2 n' par' hres
      have hn : n' = n := hopt.unique hmin
      rw [hn] at hl hllen
      refine ⟨(reconstructPath par' (sq, sr) (n + 1) (gq, gr) []).reverse,
        hmin, hpath, ?_, ?_, ?_, ?_, ?_, ?_⟩
      · rw [hunf, hres, hn]
      · rw [hl]
        simp [hllen]
      · rw [hl, List.head?_reverse]
        exact hllast
      · rw [hl, List.getLast?_reverse]
        exact hlhead
      · intro c hc
        rw [hl, List.mem_reverse] at hc
        exact hlmem c hc
      · rw [hl, List.chain'_reverse]
        exact hlchain

end TupacWasm

namespace TupacWasm

/-- C8: for all axial coordinates `a` and `b`, `hex_distance(a, a) = 0`,
`hex_distance(a, b) = hex_distance(b, a)`, and `hex_distance(a, b)` equals
`cube_distance` applied to the cube forms `axial_to_cube(a)` and
`axial_to_cube(b)`. -/
theorem hex_distance_algebraic_properties (a b : Coord) :
    hex_distance a.1 a.2 a.1 a.2 = 0 ∧
    hex_distance a.1 a.2 b.1 b.2 = hex_distance b.1 b.2 a.1 a.2 ∧
    hex_distance a.1 a.2 b.1 b.2 =
      cube_distance (axial_to_cube a.1 a.2) (axial_to_cube b.1 b.2) :=
  ⟨hex_distance_self a.1 a.2, hex_distance_symm a.1 a.2 b.1 b.2,
    hex_distance_eq_cube_distance a.1 a.2 b.1 b.2⟩

/-- C1: for every road set `R` and all axial coordinates `s`, `g`,
`hex_astar_path(s, g, R)` returns `-1` when `s ∉ R` or `g ∉ R`, returns `0`
when `s = g ∈ R`, returns the length of a shortest unit-cost path from `s`
to `g` through cells of `R` under 6-neighbor hex adjacency when such a path
exists, and returns `-1` when no such path exists. -/
theorem hex_astar_path_correct (R : Finset Coord) (sq sr gq gr : ℤ) :
    ((sq, sr) ∉ R ∨ (gq, gr) ∉ R → hex_astar_path sq sr gq gr R = -1) ∧
    ((sq, sr) ∈ R → sq = gq ∧ sr = gr → hex_astar_path sq sr gq gr R = 0) ∧
    (∀ n : ℕ, (sq, sr) ∈ R → (gq, gr) ∈ R →
      MinPath R (sq, sr) (gq, gr) n → hex_astar_path sq sr gq gr R = (n : ℤ)) ∧
    ((sq, sr) ∈ R → (gq, gr) ∈ R → ¬ Reach R (sq, sr) (gq, gr) →
      hex_astar_path sq sr gq gr R = -1) := by
  refine ⟨?_, ?_, ?_, ?_⟩
  · intro h
    unfold hex_astar_path
    rw [if_pos h]
  · intro hsR heq
    unfold hex_astar_path
    rw [if_neg (by simp [hsR, heq.1 ▸ heq.2 ▸ hsR]), if_pos heq]
  · intro n hsR hgR hmin
    exact hex_astar_path_eq_minPath hsR hgR hmin
  · intro hsR hgR hnr
    exact hex_astar_path_eq_neg_one hsR hgR hnr

/-- A concrete two-step path on the spec's straight-line example terrain. -/
theorem pathIn_line_example :
    PathIn {(0, 0), (1, 0), (2, 0)} (0, 0) (2, 0) 2 := by
  have h2 : PathIn {(0, 0), (1, 0), (2, 0)} (2, 0) (2, 0) 0 :=
    PathIn.nil (by decide)
  have h1 : PathIn {(0, 0), (1, 0), (2, 0)} (1, 0) (2, 0) 1 :=
    PathIn.cons (by decide) (by decide) h2
  exact PathIn.cons (by decide) (by decide) h1

/-- Witness for C1 at concrete inputs: straight-line terrain gives length 2;
missing start gives -1; equal start/goal gives 0; two isolated cells give -1. -/
theorem hex_astar_path_correct_witness :
    hex_astar_path 3 0 2 0 {(0, 0)} = -1 ∧
    hex_astar_path 1 1 1 1 {(1, 1)} = 0 ∧
    hex_astar_path 0 0 2 0 {(0, 0), (1, 0), (2, 0)} = 2 ∧
    hex_astar_path 0 0 5 5 {(0, 0), (5, 5)} = -1 := by
  refine ⟨?_, ?_, ?_, ?_⟩
  · exact (hex_astar_path_correct {(0, 0)} 3 0 2 0).1 (Or.inl (by decide))
  · exact (hex_astar_path_correct {(1, 1)} 1 1 1 1).2.1 (by decide) ⟨rfl, rfl⟩
  · refine (hex_astar_path_correct {(0, 0), (1, 0), (2, 0)} 0 0 2 0).2.2.1 2
      (by decide) (by decide) ⟨?_, ?_⟩
    · exact pathIn_line_example
    · intro m hm
      have h1 := hm.hex_distance_le
      have h2 : hex_distance 0 0 2 0 = 2 := by decide
      rw [h2] at h1
      exact_mod_cast h1
  · refine (hex_astar_path_correct {(0, 0), (5, 5)} 0 0 5 5).2.2.2
      (by decide) (by decide) ?_
    rintro ⟨n, hp⟩
    cases hp with
    | cons ha hadj hp' =>
      have hz := hp'.mem_left
      simp only [Finset.mem_insert, Finset.mem_singleton] at hz
      rcases hz with rfl | rfl
      · exact absurd hadj (by decide)
      · exact absurd hadj (by decide)

/-- C2: for terrain set `T` and start/goal both in `T` and connected
through it, the full path of `hex_astar` has exactly one more coordinate
than the length returned by `hex_astar_path`, its first coordinate is the
start and its last is the goal. -/
theorem hex_astar_refines_hex_astar_path (T : Finset Coord) (sq sr gq gr : ℤ)
    (hs : (sq, sr) ∈ T) (hg : (gq, gr) ∈ T)
    (hconn : Reach T (sq, sr) (gq, gr)) :
    ∃ p : List Coord, hex_astar sq sr gq gr T = some p ∧
      (p.length : ℤ) = hex_astar_path sq sr gq gr T + 1 ∧
      p.head? = some (sq, sr) ∧ p.getLast? = some (gq, gr) := by
  obtain ⟨n, p, _, hlen_eq, hsome, hplen, hhead, hlast, _, _⟩ :=
    hex_astar_some hs hg hconn
  refine ⟨p, hsome, ?_, hhead, hlast⟩
  rw [hlen_eq, hplen]
  push_cast
  ring

/-- Witness for C2 at a concrete input: the spec's straight-line example. -/
theorem hex_astar_refines_hex_astar_path_witness :
    ∃ p : List Coord, hex_astar 0 0 2 0 {(0, 0), (1, 0), (2, 0)} = some p ∧
      (p.length : ℤ) = hex_astar_path 0 0 2 0 {(0, 0), (1, 0), (2, 0)} + 1 ∧
      p.head? = some (0, 0) ∧ p.getLast? = some (2, 0) :=
  hex_astar_refines_hex_astar_path {(0, 0), (1, 0), (2, 0)} 0 0 2 0
    (by decide) (by decide) ⟨2, pathIn_line_example⟩

end TupacWasm

namespace TupacWasm

/-- Embeds `validate_road_connectivity` (source lines 563-661) at the level
of the parsed road list (the list of `(q, r)` records extracted from the
JSON input, in text order): empty and singleton lists are trivially
connected (source lines 636-644); otherwise every road after the first must
be reachable from the first through the road set (source lines 646-660). -/
def validate_road_connectivity (roads : List Coord) : Bool :=
  match roads with
  | [] => true
  | [_] => true
  | first :: rest =>
    let roads_set := (first :: rest).toFinset
    rest.all (fun road =>
      hex_astar_path first.1 first.2 road.1 road.2 roads_set != -1)

/-- C3: `validate_road_connectivity` returns `true` for empty and singleton
road lists; for lists with two or more elements it returns `true` iff every
parsed road is reachable from the first through the road set —
equivalently, iff the road set forms a single connected component. -/
theorem validate_road_connectivity_correct (roads : List Coord) :
    (roads = [] → validate_road_connectivity roads = true) ∧
    (∀ a, roads = [a] → validate_road_connectivity roads = true) ∧
    (∀ a rest, roads = a :: rest → rest ≠ [] →
      ((validate_road_connectivity roads = true ↔
        ∀ c ∈ roads, Reach roads.toFinset a c) ∧
      (validate_road_connectivity roads = true ↔
        ∀ x ∈ roads.toFinset, ∀ y ∈ roads.toFinset,
          Reach roads.toFinset x y))) := by
  refine ⟨?_, ?_, ?_⟩
  · rintro rfl
    rfl
  · rintro a rfl
    rfl
  · rintro a rest rfl hne
    obtain ⟨r0, rest', rfl⟩ : ∃ r0 rest', rest = r0 :: rest' := by
      cases rest with
      | nil => exact absurd rfl hne
      | cons r0 rest' => exact ⟨r0, rest', rfl⟩
    have haS : a ∈ (a :: r0 :: rest').toFinset := by simp
    have hval : validate_road_connectivity (a :: r0 :: rest') = true ↔
        ∀ road ∈ r0 :: rest',
          hex_astar_path a.1 a.2 road.1 road.2
            (a :: r0 :: rest').toFinset ≠ -1 := by
      unfold validate_road_connectivity
      simp [List.all_eq_true]
    have hfirst : validate_road_connectivity (a :: r0 :: rest') = true ↔
        ∀ c ∈ a :: r0 :: rest', Reach (a :: r0 :: rest').toFinset a c := by
      rw [hval]
      constructor
      · intro h c hc
        rcases List.mem_cons.mp hc with rfl | hc'
        · exact Reach.refl haS
        · by_contra hnr
          have hcS : c ∈ (a :: r0 :: rest').toFinset :=
            List.mem_toFinset.mpr (List.mem_cons_of_mem _ hc')
          have := hex_astar_path_eq_neg_one haS hcS hnr
          exact h c hc' this
      · intro h road hroad
        have hreach := h road (List.mem_cons_of_mem _ hroad)
        obtain ⟨n, hmin⟩ := hreach.exists_minPath
        have hroadS : road ∈ (a :: r0 :: rest').toFinset :=
          List.mem_toFinset.mpr (List.mem_cons_of_mem _ hroad)
        rw [hex_astar_path_eq_minPath haS hroadS hmin]
        intro hcast
        omega
    refine ⟨hfirst, ?_⟩
    rw [hfirst]
    constructor
    · intro h x hx y hy
      have hx' : x ∈ a :: r0 :: rest' := List.mem_toFinset.mp hx
      have hy' : y ∈ a :: r0 :: rest' := List.mem_toFinset.mp hy
      exact (h x hx').symm.trans (h y hy')
    · intro h c hc
      exact h a haS c (List.mem_toFinset.mpr hc)

/-- Witness for C3 at concrete inputs. -/
theorem validate_road_connectivity_correct_witness :
    validate_road_connectivity [] = true ∧
    validate_road_connectivity [(2, 3)] = true ∧
    (validate_road_connectivity [(0, 0), (1, 0)] = true ↔
      ∀ c ∈ [((0 : ℤ), (0 : ℤ)), (1, 0)],
        Reach ([((0 : ℤ), (0 : ℤ)), (1, 0)]).toFinset (0, 0) c) :=
  ⟨(validate_road_connectivity_correct []).1 rfl,
   (validate_road_connectivity_correct [(2, 3)]).2.1 (2, 3) rfl,
   ((validate_road_connectivity_correct [(0, 0), (1, 0)]).2.2 (0, 0) [(1, 0)]
     rfl (by decide)).1⟩

end TupacWasm

namespace TupacWasm

/-- Cube directions (source lines 672-679), in source order. -/
def CUBE_DIRECTIONS : List CubeCoord :=
  [⟨1, 0, -1⟩, ⟨1, -1, 0⟩, ⟨0, -1, 1⟩, ⟨-1, 0, 1⟩, ⟨-1, 1, 0⟩, ⟨0, 1, -1⟩]

/-- Embeds `cube_add` (source lines 682-688). -/
def cube_add (a b : CubeCoord) : CubeCoord :=
  ⟨a.q + b.q, a.r + b.r, a.s + b.s⟩

/-- Embeds `cube_scale` (source lines 691-697). -/
def cube_scale (hex : CubeCoord) (factor : ℤ) : CubeCoord :=
  ⟨hex.q * factor, hex.r * factor, hex.s * factor⟩

/-- Embeds `cube_neighbor` (source lines 700-702): direction is reduced
mod 6 before indexing. -/
def cube_neighbor (cube : CubeCoord) (direction : ℕ) : CubeCoord :=
  cube_add cube (CUBE_DIRECTIONS.getD (direction % 6) ⟨0, 0, 0⟩)

/-- One side of the ring walk: push the current hex then step `radius`
times in direction `dir` (the inner loop of source lines 717-723). -/
def walkSide (cur : CubeCoord) (dir : ℕ) : ℕ → List CubeCoord × CubeCoord
  | 0 => ([], cur)
  | n + 1 =>
    let next := walkSide (cube_neighbor cur dir) dir n
    (cur :: next.1, next.2)

/-- The six sides of the ring walk (the outer loop of source lines 717-723),
threading the current hex from side to side. -/
def ringSides (radius : ℕ) : ℕ → ℕ → CubeCoord → List CubeCoord
  | _, 0, _ => []
  | i, count + 1, cur =>
    let side := walkSide cur i radius
    side.1 ++ ringSides radius (i + 1) count side.2

/-- Embeds `cube_ring` (source lines 705-726): `[center]` at radius 0,
otherwise start `radius` steps in direction 4 from the center and walk the
six sides.  A negative radius yields empty sides, as in the source where
`0..radius` is an empty range. -/
def cube_ring (center : CubeCoord) (radius : ℤ) : List CubeCoord :=
  if radius = 0 then [center]
  else
    let start := cube_add center
      (cube_scale (CUBE_DIRECTIONS.getD 4 ⟨0, 0, 0⟩) radius)
    ringSides radius.toNat 0 6 start

theorem CubeCoord.ext3 {a b : CubeCoord} (hq : a.q = b.q) (hr : a.r = b.r)
    (hs : a.s = b.s) : a = b := by
  cases a
  cases b
  simp only at hq hr hs
  rw [hq, hr, hs]

theorem walkSide_spec (dir : ℕ) : ∀ (n : ℕ) (cur : CubeCoord),
    (walkSide cur dir n).1 = (List.range n).map
      (fun j : ℕ => cube_add cur
        (cube_scale (CUBE_DIRECTIONS.getD (dir % 6) ⟨0, 0, 0⟩) (j : ℤ))) ∧
    (walkSide cur dir n).2 = cube_add cur
      (cube_scale (CUBE_DIRECTIONS.getD (dir % 6) ⟨0, 0, 0⟩) (n : ℤ)) := by
  intro n
  induction n with
  | zero =>
    intro cur
    constructor
    · simp [walkSide]
    · show cur = _
      apply CubeCoord.ext3 <;> simp [cube_add, cube_scale]
  | succ n ih =>
    intro cur
    obtain ⟨ih1, ih2⟩ := ih (cube_neighbor cur dir)
    constructor
    · show cur :: (walkSide (cube_neighbor cur dir) dir n).1 = _
      rw [ih1, List.range_succ_eq_map]
      simp only [List.map_cons, List.map_map]
      congr 1
      · apply CubeCoord.ext3 <;> simp [cube_add, cube_scale]
      · apply List.map_congr_left
        intro j _
        show cube_add (cube_neighbor cur dir) _ = _
        unfold cube_neighbor
        apply CubeCoord.ext3 <;> simp [cube_add, cube_scale, Function.comp] <;>
          push_cast <;> ring
    · show (walkSide (cube_neighbor cur dir) dir n).2 = _
      rw [ih2]
      unfold cube_neighbor
      apply CubeCoord.ext3 <;> simp [cube_add, cube_scale] <;> push_cast <;> ring

theorem walkSide_length (dir n : ℕ) (cur : CubeCoord) :
    (walkSide cur dir n).1.length = n := by
  rw [(walkSide_spec dir n cur).1]
  simp

theorem ringSides_succ (radius i count : ℕ) (cur : CubeCoord) :
    ringSides radius i (count + 1) cur =
      (walkSide cur i radius).1 ++
        ringSides radius (i + 1) count (walkSide cur i radius).2 := rfl

theorem ringSides_length (radius : ℕ) : ∀ (count i : ℕ) (cur : CubeCoord),
    (ringSides radius i count cur).length = count * radius := by
  intro count
  induction count with
  | zero =>
    intro i cur
    simp [ringSides]
  | succ count ih =>
    intro i cur
    rw [ringSides_succ]
    simp [walkSide_length, ih]
    ring

/-- Helper: the three-way max of absolute values equals `k` when all three
are bounded by `k` and one of them is `k` or `-k`. -/
theorem max3_abs_eq {dq dr ds k : ℤ} (h1 : -k ≤ dq ∧ dq ≤ k)
    (h2 : -k ≤ dr ∧ dr ≤ k) (h3 : -k ≤ ds ∧ ds ≤ k)
    (h4 : dq = k ∨ dq = -k ∨ dr = k ∨ dr = -k ∨ ds = k ∨ ds = -k)
    (hk : 0 ≤ k) :
    max (max |dq| |dr|) |ds| = k := by
  rcases abs_cases dq with ⟨e1, _⟩ | ⟨e1, _⟩ <;>
    rcases abs_cases dr with ⟨e2, _⟩ | ⟨e2, _⟩ <;>
    rcases abs_cases ds with ⟨e3, _⟩ | ⟨e3, _⟩ <;>
    rw [e1, e2, e3, max_def, max_def] <;> split_ifs <;> omega

end TupacWasm

namespace TupacWasm

theorem ringSides_zero (radius i : ℕ) (cur : CubeCoord) :
    ringSides radius i 0 cur = [] := by
  simp [ringSides]

theorem walkSide_mem {cur : CubeCoord} {dir n : ℕ} {cell : CubeCoord}
    (h : cell ∈ (walkSide cur dir n).1) :
    ∃ j : ℕ, j < n ∧ cell = cube_add cur
      (cube_scale (CUBE_DIRECTIONS.getD (dir % 6) ⟨0, 0, 0⟩) (j : ℤ)) := by
  rw [(walkSide_spec dir n cur).1] at h
  simp only [List.mem_map, List.mem_range] at h
  obtain ⟨j, hj, hcell⟩ := h
  exact ⟨j, hj, hcell.symm⟩

theorem cube_distance_add (c : CubeCoord) (dq dr ds : ℤ) :
    cube_distance c ⟨c.q + dq, c.r + dr, c.s + ds⟩ =
      max (max |dq| |dr|) |ds| := by
  unfold cube_distance
  have e1 : c.q - (c.q + dq) = -dq := by ring
  have e2 : c.r - (c.r + dr) = -dr := by ring
  have e3 : c.s - (c.s + ds) = -ds := by ring
  simp only
  rw [e1, e2, e3, abs_neg, abs_neg, abs_neg]

/-- Every cell of a radius-`k ≥ 1` ring is the center displaced by a cube
vector of zero component-sum whose max-abs is exactly `k`.  Obtained by
walking the six sides with their explicit start points. -/
theorem cube_ring_mem_delta {center : CubeCoord} {k : ℤ} (hk : 1 ≤ k) :
    ∀ cell ∈ cube_ring center k, ∃ dq dr ds : ℤ,
      cell = ⟨center.q + dq, center.r + dr, center.s + ds⟩ ∧
      dq + dr + ds = 0 ∧ max (max |dq| |dr|) |ds| = k := by
  intro cell hcell
  have hk0 : k ≠ 0 := by omega
  have hcast : ((k.toNat : ℤ)) = k := Int.toNat_of_nonneg (by omega)
  unfold cube_ring at hcell
  rw [if_neg hk0] at hcell
  have hS0 : cube_add center (cube_scale (CUBE_DIRECTIONS.getD 4 ⟨0, 0, 0⟩) k) =
      (⟨center.q - k, center.r + k, center.s⟩ : CubeCoord) := by
    apply CubeCoord.ext3 <;> simp [cube_add, cube_scale, CUBE_DIRECTIONS] <;> ring
  rw [ringSides_succ, ringSides_succ, ringSides_succ, ringSides_succ,
    ringSides_succ, ringSides_succ, ringSides_zero, hS0] at hcell
  have hW : ∀ (S : CubeCoord) (dir : ℕ),
      (walkSide S dir k.toNat).2 = cube_add S
        (cube_scale (CUBE_DIRECTIONS.getD (dir % 6) ⟨0, 0, 0⟩) k) := by
    intro S dir
    rw [(walkSide_spec dir k.toNat S).2, hcast]
  have hS1 : (walkSide (⟨center.q - k, center.r + k, center.s⟩ : CubeCoord)
      0 k.toNat).2 = (⟨center.q, center.r + k, center.s - k⟩ : CubeCoord) := by
    rw [hW]
    apply CubeCoord.ext3 <;> simp [cube_add, cube_scale, CUBE_DIRECTIONS] <;> ring
  rw [hS1] at hcell
  have hS2 : (walkSide (⟨center.q, center.r + k, center.s - k⟩ : CubeCoord)
      1 k.toNat).2 = (⟨center.q + k, center.r, center.s - k⟩ : CubeCoord) := by
    rw [hW]
    apply CubeCoord.ext3 <;> simp [cube_add, cube_scale, CUBE_DIRECTIONS] <;> ring
  rw [hS2] at hcell
  have hS3 : (walkSide (⟨center.q + k, center.r, center.s - k⟩ : CubeCoord)
      2 k.toNat).2 = (⟨center.q + k, center.r - k, center.s⟩ : CubeCoord) := by
    rw [hW]
    apply CubeCoord.ext3 <;> simp [cube_add, cube_scale, CUBE_DIRECTIONS] <;> ring
  rw [hS3] at hcell
  have hS4 : (walkSide (⟨center.q + k, center.r - k, center.s⟩ : CubeCoord)
      3 k.toNat).2 = (⟨center.q, center.r - k, center.s + k⟩ : CubeCoord) := by
    rw [hW]
    apply CubeCoord.ext3 <;> simp [cube_add, cube_scale, CUBE_DIRECTIONS] <;> ring
  rw [hS4] at hcell
  have hS5 : (walkSide (⟨center.q, center.r - k, center.s + k⟩ : CubeCoord)
      4 k.toNat).2 = (⟨center.q - k, center.r, center.s + k⟩ : CubeCoord) := by
    rw [hW]
    apply CubeCoord.ext3 <;> simp [cube_add, cube_scale, CUBE_DIRECTIONS] <;> ring
  rw [hS5] at hcell
  simp only [List.mem_append, List.not_mem_nil, or_false] at hcell
  have hjk : ∀ j : ℕ, j < k.toNat → (j : ℤ) < k := by
    intro j hj
    omega
  rcases hcell with h | h | h | h | h | h
  · obtain ⟨j, hj, rfl⟩ := walkSide_mem h
    have hjZ := hjk j hj
    refine ⟨-k + j, k, -j, ?_, by ring, ?_⟩
    · apply CubeCoord.ext3 <;> simp [cube_add, cube_scale, CUBE_DIRECTIONS] <;> ring
    · exact max3_abs_eq ⟨by omega, by omega⟩ ⟨by omega, by omega⟩
        ⟨by omega, by omega⟩ (by omega) (by omega)
  · obtain ⟨j, hj, rfl⟩ := walkSide_mem h
    have hjZ := hjk j hj
    refine ⟨j, k - j, -k, ?_, by ring, ?_⟩
    · apply CubeCoord.ext3 <;> simp [cube_add, cube_scale, CUBE_DIRECTIONS] <;> ring
    · exact max3_abs_eq ⟨by omega, by omega⟩ ⟨by omega, by omega⟩
        ⟨by omega, by omega⟩ (by omega) (by omega)
  · obtain ⟨j, hj, rfl⟩ := walkSide_mem h
    have hjZ := hjk j hj
    refine ⟨k, -j, -k + j, ?_, by ring, ?_⟩
    · apply CubeCoord.ext3 <;> simp [cube_add, cube_scale, CUBE_DIRECTIONS] <;> ring
    · exact max3_abs_eq ⟨by omega, by omega⟩ ⟨by omega, by omega⟩
        ⟨by omega, by omega⟩ (by omega) (by omega)
  · obtain ⟨j, hj, rfl⟩ := walkSide_mem h
    have hjZ := hjk j hj
    refine ⟨k - j, -k, j, ?_, by ring, ?_⟩
    · apply CubeCoord.ext3 <;> simp [cube_add, cube_scale, CUBE_DIRECTIONS] <;> ring
    · exact max3_abs_eq ⟨by omega, by omega⟩ ⟨by omega, by omega⟩
        ⟨by omega, by omega⟩ (by omega) (by omega)
  · obtain ⟨j, hj, rfl⟩ := walkSide_mem h
    have hjZ := hjk j hj
    refine ⟨-j, -k + j, k, ?_, by ring, ?_⟩
    · apply CubeCoord.ext3 <;> simp [cube_add, cube_scale, CUBE_DIRECTIONS] <;> ring
    · exact max3_abs_eq ⟨by omega, by omega⟩ ⟨by omega, by omega⟩
        ⟨by omega, by omega⟩ (by omega) (by omega)
  · obtain ⟨j, hj, rfl⟩ := walkSide_mem h
    have hjZ := hjk j hj
    refine ⟨-k, j, k - j, ?_, by ring, ?_⟩
    · apply CubeCoord.ext3 <;> simp [cube_add, cube_scale, CUBE_DIRECTIONS] <;> ring
    · exact max3_abs_eq ⟨by omega, by omega⟩ ⟨by omega, by omega⟩
        ⟨by omega, by omega⟩ (by omega) (by omega)

end TupacWasm

namespace TupacWasm

/-- C5: `cube_ring(center, 0) = [center]`; for `k ≥ 1`, `cube_ring(center, k)`
returns exactly `6k` cells, each at hex distance exactly `k` from the center
(`cube_distance` on the cube coordinates; equivalently `hex_distance` on the
axial parts whenever the center satisfies the cube invariant). -/
theorem cube_ring_spec (center : CubeCoord) :
    cube_ring center 0 = [center] ∧
    ∀ k : ℤ, 1 ≤ k →
      ((cube_ring center k).length : ℤ) = 6 * k ∧
      ∀ cell ∈ cube_ring center k,
        cube_distance center cell = k ∧
        (center.q + center.r + center.s = 0 →
          hex_distance center.q center.r cell.q cell.r = k) := by
  constructor
  · rfl
  · intro k hk
    have hk0 : k ≠ 0 := by omega
    have hcast : ((k.toNat : ℤ)) = k := Int.toNat_of_nonneg (by omega)
    constructor
    · unfold cube_ring
      rw [if_neg hk0]
      rw [ringSides_length]
      push_cast
      omega
    · intro cell hcell
      obtain ⟨dq, dr, ds, hcelleq, hsum0, hmax⟩ :=
        cube_ring_mem_delta hk cell hcell
      constructor
      · rw [hcelleq, cube_distance_add, hmax]
      · intro hsum
        rw [hex_distance_eq_cube_distance]
        have hc1 : axial_to_cube center.q center.r = center := by
          apply CubeCoord.ext3 <;> simp [axial_to_cube] <;> omega
        have hc2 : axial_to_cube cell.q cell.r = cell := by
          rw [hcelleq]
          apply CubeCoord.ext3 <;> simp [axial_to_cube] <;> omega
        rw [hc1, hc2, hcelleq, cube_distance_add, hmax]

/-- Witness for C5 at concrete inputs: the unit ring around the origin. -/
theorem cube_ring_spec_witness :
    cube_ring ⟨0, 0, 0⟩ 0 = [⟨0, 0, 0⟩] ∧
    ((cube_ring ⟨0, 0, 0⟩ 1).length : ℤ) = 6 * 1 ∧
    (cube_distance ⟨0, 0, 0⟩ ⟨-1, 1, 0⟩ = 1 ∧
      ((0 : ℤ) + 0 + 0 = 0 → hex_distance 0 0 (-1) 1 = 1)) := by
  have h := cube_ring_spec (⟨0, 0, 0⟩ : CubeCoord)
  have h2 := h.2 1 (by norm_num)
  exact ⟨h.1, h2.1, h2.2 ⟨-1, 1, 0⟩ (by decide)⟩

end TupacWasm

namespace TupacWasm

/-! ### Voronoi region generation

Embeds `generate_hex_grid` (source lines 731-758) and
`generate_voronoi_regions` (source lines 773-929).

`generate_hex_grid` inserts the cube cells of rings `0..=max_layer` into a
`HashSet` and then iterates that set to build the output vector.  The set of
inserted cells is a pure function of the arguments (`hexGridSet` below), but
the *iteration order* of a Rust `std::collections::HashSet` is unspecified
(`RandomState` hashers differ between instances), so the embedding takes the
iteration order as an explicit `enum` parameter constrained by
`HexGridEnumOk`.  Everything downstream of the order (seed-index selection,
record order) is then a function of `enum`. -/

/-- Seed point for Voronoi region generation (source lines 68-73). -/
structure VoronoiSeed where
  q : ℤ
  r : ℤ
  tile_type : TileType
deriving DecidableEq, Repr

/-- The set of `(q, r, s)` cells inserted into `grid_set` by
`generate_hex_grid` (source lines 739-746): the rings of layers
`0..=max_layer` (no layers when `max_layer < 0`). -/
def hexGridSet (max_layer center_q center_r : ℤ) : Finset (ℤ × ℤ × ℤ) :=
  ((List.range (max_layer + 1).toNat).flatMap (fun layer =>
    (cube_ring ⟨center_q, center_r, -center_q - center_r⟩ (layer : ℤ)).map
      (fun c => (c.q, c.r, c.s)))).toFinset

/-- `enum` is a possible iteration order of the `grid_set` hash set. -/
def HexGridEnumOk (max_layer center_q center_r : ℤ)
    (enum : List (ℤ × ℤ × ℤ)) : Prop :=
  enum.Nodup ∧ enum.toFinset = hexGridSet max_layer center_q center_r

instance (max_layer center_q center_r : ℤ) (enum : List (ℤ × ℤ × ℤ)) :
    Decidable (HexGridEnumOk max_layer center_q center_r enum) := by
  unfold HexGridEnumOk
  infer_instance

/-- Embeds `generate_hex_grid` (source lines 731-758) given the hash-set
iteration order: keep the cells satisfying the cube invariant, projected to
axial coordinates. -/
def generate_hex_grid (max_layer center_q center_r : ℤ)
    (enum : List (ℤ × ℤ × ℤ)) : List Coord :=
  (enum.filter (fun t => decide (t.1 + t.2.1 + t.2.2 = 0))).map
    (fun t => (t.1, t.2.1))

/-- The deterministic seed-index formula (source line 816):
`(counter * 7919 + i * 997) % hex_count`. -/
def seedIndex (counter i hex_count : ℕ) : ℕ :=
  (counter * 7919 + i * 997) % hex_count

/-- One seed-generation loop (source lines 812-827 and its two copies):
`counter0` is the value of `seed_counter` before the loop starts; each
iteration increments it, computes the index, and pushes a seed if the index
is in bounds (it always is when the grid is nonempty). -/
def mkTypeSeeds (hex_vec : List Coord) (count : ℕ) (tile : TileType)
    (counter0 : ℕ) : List VoronoiSeed :=
  (List.range count).flatMap (fun i =>
    let index := seedIndex (counter0 + i + 1) i hex_vec.length
    if h : index < hex_vec.length then
      [⟨(hex_vec.get ⟨index, h⟩).1, (hex_vec.get ⟨index, h⟩).2, tile⟩]
    else [])

/-- All seed generation (source lines 806-856): negative requested counts
are treated as zero; Forest seeds first, then Water, then Grass, with one
running counter across the three loops. -/
def mkSeeds (hex_vec : List Coord) (forest_seeds water_seeds grass_seeds : ℤ) :
    List VoronoiSeed :=
  let fc := if forest_seeds > 0 then forest_seeds.toNat else 0
  let wc := if water_seeds > 0 then water_seeds.toNat else 0
  let gc := if grass_seeds > 0 then grass_seeds.toNat else 0
  mkTypeSeeds hex_vec fc TileType.Forest 0 ++
    mkTypeSeeds hex_vec wc TileType.Water fc ++
    mkTypeSeeds hex_vec gc TileType.Grass (fc + wc)

/-- Embeds Rust `Iterator::min_by_key`: the first element attaining the
minimal key (ties keep the earlier element). -/
def minByKeyFirst {α : Type} (key : α → ℤ) : List α → Option α
  | [] => none
  | x :: xs => some (xs.foldl (fun acc y => if key y < key acc then y else acc) x)

/-- Embeds `generate_voronoi_regions` (source lines 773-929) at the level of
the record list serialized into the JSON output: `(q, r, tileType)` per
emitted record, including all the defensive fallbacks of the source. -/
def generate_voronoi_records (max_layer center_q center_r forest_seeds
    water_seeds grass_seeds : ℤ) (enum : List (ℤ × ℤ × ℤ)) :
    List (ℤ × ℤ × ℤ) :=
  let hex_grid := generate_hex_grid max_layer center_q center_r enum
  match hex_grid with
  | [] => [(0, 0, 0)]
  | _ =>
    let hex_vec : List Coord := hex_grid
    if hex_vec.length = 0 then [(0, 0, 0)]
    else
      let seeds := mkSeeds hex_vec forest_seeds water_seeds grass_seeds
      let seeds : List VoronoiSeed := match seeds with
        | [] =>
          match hex_vec.head? with
          | some c => [⟨c.1, c.2, TileType.Grass⟩]
          | none => []
        | s => s
      match seeds with
      | [] => [(0, 0, 0)]
      | _ =>
        let records := hex_grid.flatMap (fun hex =>
          match minByKeyFirst
              (fun seed => hex_distance hex.1 hex.2 seed.q seed.r) seeds with
          | some seed => [(hex.1, hex.2, seed.tile_type.toInt)]
          | none => [])
        match records with
        | [] =>
          match seeds.head? with
          | some s0 => [(s0.q, s0.r, s0.tile_type.toInt)]
          | none =>
            match hex_grid.head? with
            | some h0 => [(h0.1, h0.2, 0)]
            | none => [(666, 666, 0)]
        | parts => parts

/-- One JSON record of the output string (source line 890). -/
def fmtVoronoiRecord (rec : ℤ × ℤ × ℤ) : String :=
  "\x7b\"q\":" ++ toString rec.1 ++ ",\"r\":" ++ toString rec.2.1 ++
    ",\"tileType\":" ++ toString rec.2.2 ++ "\x7d"

/-- Embeds the JSON output string of `generate_voronoi_regions`
(source lines 883-928), including the final empty-array check. -/
def generate_voronoi_regions (max_layer center_q center_r forest_seeds
    water_seeds grass_seeds : ℤ) (enum : List (ℤ × ℤ × ℤ)) : String :=
  let records := generate_voronoi_records max_layer center_q center_r
    forest_seeds water_seeds grass_seeds enum
  let result := "[" ++
    String.intercalate "," (records.map fmtVoronoiRecord) ++ "]"
  if result = "[]" then "[\x7b\"q\":444,\"r\":444,\"tileType\":0\x7d]"
  else result

end TupacWasm

namespace TupacWasm

/-- One possible iteration order of the radius-1 disk's hash set around the
origin. -/
def diskEnumA : List (ℤ × ℤ × ℤ) :=
  [(0, 0, 0), (-1, 1, 0), (0, 1, -1), (1, 0, -1), (1, -1, 0), (0, -1, 1),
   (-1, 0, 1)]

/-- Another possible iteration order of the same hash set (two cells
swapped). -/
def diskEnumB : List (ℤ × ℤ × ℤ) :=
  [(0, 0, 0), (-1, 1, 0), (1, -1, 0), (1, 0, -1), (0, 1, -1), (0, -1, 1),
   (-1, 0, 1)]

/-- C4 (failing-input evaluation): the two orders `diskEnumA` and
`diskEnumB` are both valid iteration orders of the same deduplicated disk
set for `max_layer = 1`, center `(0,0)`, yet `generate_voronoi_regions`
with identical arguments (1 forest seed, 1 water seed) produces different
output strings for them: the seed-index formula selects different cells
and the records are emitted in a different order.  Since the iteration
order of the Rust `HashSet` used for deduplication is unspecified and not
stable across calls, identical calls are not guaranteed identical output,
contradicting the claim. -/
theorem generate_voronoi_regions_order_dependent :
    HexGridEnumOk 1 0 0 diskEnumA ∧ HexGridEnumOk 1 0 0 diskEnumB ∧
    generate_voronoi_regions 1 0 0 1 1 0 diskEnumA ≠
      generate_voronoi_regions 1 0 0 1 1 0 diskEnumB := by
  refine ⟨by decide, by decide, by decide⟩

/-- The first seed attaining the minimal hex distance to `hex`, in seed
list order: minimal among all seeds, and strictly better than every seed
before it. -/
def IsFirstMinSeed (seeds : List VoronoiSeed) (hex : Coord)
    (sd : VoronoiSeed) : Prop :=
  (∀ s' ∈ seeds, hex_distance hex.1 hex.2 sd.q sd.r ≤
    hex_distance hex.1 hex.2 s'.q s'.r) ∧
  ∃ pre post, seeds = pre ++ sd :: post ∧
    ∀ s' ∈ pre, hex_distance hex.1 hex.2 sd.q sd.r <
      hex_distance hex.1 hex.2 s'.q s'.r

/-- `minByKeyFirst` returns a minimal element that strictly beats every
element before it in the list. -/
theorem minByKeyFirst_spec {α : Type} (key : α → ℤ) :
    ∀ (xs : List α) (x : α) (m : α),
      minByKeyFirst key (x :: xs) = some m →
      (∀ y ∈ x :: xs, key m ≤ key y) ∧
      ∃ pre post, x :: xs = pre ++ m :: post ∧ ∀ y ∈ pre, key m < key y := by
  intro xs
  induction xs with
  | nil =>
    intro x m h
    simp only [minByKeyFirst, List.foldl_nil, Option.some.injEq] at h
    subst h
    exact ⟨by simp, [], [], rfl, by simp⟩
  | cons y ys ih =>
    intro x m h
    simp only [minByKeyFirst, List.foldl_cons, Option.some.injEq] at h
    have h' : minByKeyFirst key ((if key y < key x then y else x) :: ys) =
        some m := by
      simp only [minByKeyFirst, Option.some.injEq]
      exact h
    obtain ⟨hmin', pre', post', heq', hpre'⟩ := ih _ m h'
    by_cases hxy : key y < key x
    · rw [if_pos hxy] at hmin' heq'
      cases pre' with
      | nil =>
        simp only [List.nil_append, List.cons.injEq] at heq'
        obtain ⟨rfl, rfl⟩ := heq'
        refine ⟨?_, [x], ys, rfl, ?_⟩
        · intro z hz
          rcases List.mem_cons.mp hz with rfl | hz'
          · exact le_of_lt hxy
          · exact hmin' z hz'
        · intro z hz
          simp only [List.mem_singleton] at hz
          subst hz
          exact lt_of_le_of_lt (hmin' _ (List.mem_cons_self _ _)) hxy
      | cons a pre'' =>
        simp only [List.cons_append, List.cons.injEq] at heq'
        obtain ⟨rfl, heq''⟩ := heq'
        refine ⟨?_, x :: y :: pre'', post', by simp [heq''], ?_⟩
        · intro z hz
          rcases List.mem_cons.mp hz with rfl | hz'
          · exact le_of_lt (lt_of_le_of_lt
              (hmin' y (List.mem_cons_self _ _)) hxy)
          · exact hmin' z hz'
        · intro z hz
          rcases List.mem_cons.mp hz with rfl | hz'
          · exact lt_of_le_of_lt (hmin' y (List.mem_cons_self _ _)) hxy
          · exact hpre' z hz'
    · rw [if_neg hxy] at hmin' heq'
      have hxley : key x ≤ key y := le_of_not_lt hxy
      cases pre' with
      | nil =>
        simp only [List.nil_append, List.cons.injEq] at heq'
        obtain ⟨rfl, rfl⟩ := heq'
        refine ⟨?_, [], y :: ys, rfl, by simp⟩
        intro z hz
        rcases List.mem_cons.mp hz with rfl | hz'
        · exact le_refl _
        · rcases List.mem_cons.mp hz' with rfl | hz''
          · exact hxley
          · exact hmin' z (List.mem_cons_of_mem _ hz'')
      | cons a pre'' =>
        simp only [List.cons_append, List.cons.injEq] at heq'
        obtain ⟨rfl, heq''⟩ := heq'
        refine ⟨?_, x :: y :: pre'', post', by simp [heq''], ?_⟩
        · intro z hz
          rcases List.mem_cons.mp hz with rfl | hz'
          · exact hmin' z (List.mem_cons_self _ _)
          · rcases List.mem_cons.mp hz' with rfl | hz''
            · exact le_trans (hmin' x (List.mem_cons_self _ _)) hxley
            · exact hmin' z (List.mem_cons_of_mem _ hz'')
        · intro z hz
          rcases List.mem_cons.mp hz with rfl | hz'
          · exact hpre' z (List.mem_cons_self _ _)
          · rcases List.mem_cons.mp hz' with rfl | hz''
            · exact lt_of_lt_of_le (hpre' x (List.mem_cons_self _ _)) hxley
            · exact hpre' z (List.mem_cons_of_mem _ hz'')

theorem flatMap_eq_map_of_eq {α β : Type} {body : α → List β} {f : α → β}
    (l : List α) (h : ∀ x ∈ l, body x = [f x]) :
    l.flatMap body = l.map f := by
  induction l with
  | nil => rfl
  | cons a l ih =>
    simp only [List.flatMap_cons, List.map_cons,
      h a (List.mem_cons_self _ _), ih (fun x hx => h x (List.mem_cons_of_mem _ hx))]
    rfl

theorem mkTypeSeeds_tile (hex_vec : List Coord) (count : ℕ) (tile : TileType)
    (counter0 : ℕ) :
    ∀ s ∈ mkTypeSeeds hex_vec count tile counter0, s.tile_type = tile := by
  intro s hs
  simp only [mkTypeSeeds, List.mem_flatMap, List.mem_range] at hs
  obtain ⟨i, _, hs⟩ := hs
  split at hs
  · simp only [List.mem_singleton] at hs
    subst hs
    rfl
  · simp at hs

end TupacWasm

namespace TupacWasm

theorem minByKeyFirst_cons {α : Type} (key : α → ℤ) (x : α) (xs : List α) :
    ∃ m, minByKeyFirst key (x :: xs) = some m := by
  simp [minByKeyFirst]

/-- C6: when the disk is non-empty and at least one seed exists,
`generate_voronoi_regions` emits one record per disk cell, whose `tileType`
is that of the seed at minimal hex distance from the cell, ties resolved in
favor of the seed that comes first in seed generation order; and the seed
list consists of all Forest seeds, then all Water seeds, then all Grass
seeds. -/
theorem generate_voronoi_records_nearest_seed
    (max_layer center_q center_r forest_seeds water_seeds grass_seeds : ℤ)
    (enum : List (ℤ × ℤ × ℤ))
    (hgrid : generate_hex_grid max_layer center_q center_r enum ≠ [])
    (hseeds : mkSeeds (generate_hex_grid max_layer center_q center_r enum)
      forest_seeds water_seeds grass_seeds ≠ []) :
    ∃ choice : Coord → VoronoiSeed,
      (∀ hex ∈ generate_hex_grid max_layer center_q center_r enum,
        IsFirstMinSeed
          (mkSeeds (generate_hex_grid max_layer center_q center_r enum)
            forest_seeds water_seeds grass_seeds) hex (choice hex)) ∧
      generate_voronoi_records max_layer center_q center_r forest_seeds
          water_seeds grass_seeds enum =
        (generate_hex_grid max_layer center_q center_r enum).map
          (fun hex => (hex.1, hex.2, (choice hex).tile_type.toInt)) ∧
      (∃ fpart wpart gpart,
        mkSeeds (generate_hex_grid max_layer center_q center_r enum)
          forest_seeds water_seeds grass_seeds = fpart ++ wpart ++ gpart ∧
        (∀ s ∈ fpart, s.tile_type = TileType.Forest) ∧
        (∀ s ∈ wpart, s.tile_type = TileType.Water) ∧
        (∀ s ∈ gpart, s.tile_type = TileType.Grass)) := by
  obtain ⟨g0, grest, hgeq⟩ : ∃ g0 grest,
      generate_hex_grid max_layer center_q center_r enum = g0 :: grest := by
    cases hg : generate_hex_grid max_layer center_q center_r enum with
    | nil => exact absurd hg hgrid
    | cons g0 grest => exact ⟨g0, grest, rfl⟩
  obtain ⟨s0, srest, hseq⟩ : ∃ s0 srest,
      mkSeeds (generate_hex_grid max_layer center_q center_r enum)
        forest_seeds water_seeds grass_seeds = s0 :: srest := by
    cases hs : mkSeeds (generate_hex_grid max_layer center_q center_r enum)
        forest_seeds water_seeds grass_seeds with
    | nil => exact absurd hs hseeds
    | cons s0 srest => exact ⟨s0, srest, rfl⟩
  refine ⟨fun hex => (minByKeyFirst
      (fun seed => hex_distance hex.1 hex.2 seed.q seed.r)
      (mkSeeds (generate_hex_grid max_layer center_q center_r enum)
        forest_seeds water_seeds grass_seeds)).getD ⟨0, 0, TileType.Grass⟩,
    ?_, ?_, ?_⟩
  · intro hex _
    rw [hseq]
    obtain ⟨m, hm⟩ := minByKeyFirst_cons
      (fun seed => hex_distance hex.1 hex.2 seed.q seed.r) s0 srest
    simp only [hm, Option.getD_some]
    obtain ⟨hmin, pre, post, hsplit, hpre⟩ :=
      minByKeyFirst_spec _ srest s0 m hm
    exact ⟨hmin, pre, post, hsplit, hpre⟩
  · have hbody : ∀ hex ∈ g0 :: grest,
        (match minByKeyFirst
            (fun seed => hex_distance hex.1 hex.2 seed.q seed.r)
            (s0 :: srest) with
        | some seed => [(hex.1, hex.2, seed.tile_type.toInt)]
        | none => ([] : List (ℤ × ℤ × ℤ))) =
          [(hex.1, hex.2,
            (((minByKeyFirst
              (fun seed => hex_distance hex.1 hex.2 seed.q seed.r)
              (s0 :: srest)).getD ⟨0, 0, TileType.Grass⟩)).tile_type.toInt)] := by
      intro hex _
      obtain ⟨m, hm⟩ := minByKeyFirst_cons
        (fun seed => hex_distance hex.1 hex.2 seed.q seed.r) s0 srest
      rw [hm]
      rfl
    have hseq2 : mkSeeds (g0 :: grest) forest_seeds water_seeds grass_seeds
        = s0 :: srest := by
      rw [← hgeq]
      exact hseq
    rw [hgeq]
    unfold generate_voronoi_records
    simp only [hgeq, hseq2, List.length_cons, Nat.succ_ne_zero, ite_false]
    rw [flatMap_eq_map_of_eq (g0 :: grest) hbody]
    simp only [List.map_cons]
  · refine ⟨_, _, _, rfl, mkTypeSeeds_tile _ _ _ _, mkTypeSeeds_tile _ _ _ _,
      mkTypeSeeds_tile _ _ _ _⟩

/-- Witness for C6 at a concrete input: single-cell disk, one grass seed. -/
theorem generate_voronoi_records_nearest_seed_witness :
    ∃ choice : Coord → VoronoiSeed,
      (∀ hex ∈ generate_hex_grid 0 0 0 [(0, 0, 0)],
        IsFirstMinSeed (mkSeeds (generate_hex_grid 0 0 0 [(0, 0, 0)]) 0 0 1)
          hex (choice hex)) ∧
      generate_voronoi_records 0 0 0 0 0 1 [(0, 0, 0)] =
        (generate_hex_grid 0 0 0 [(0, 0, 0)]).map
          (fun hex => (hex.1, hex.2, (choice hex).tile_type.toInt)) ∧
      (∃ fpart wpart gpart,
        mkSeeds (generate_hex_grid 0 0 0 [(0, 0, 0)]) 0 0 1 =
          fpart ++ wpart ++ gpart ∧
        (∀ s ∈ fpart, s.tile_type = TileType.Forest) ∧
        (∀ s ∈ wpart, s.tile_type = TileType.Water) ∧
        (∀ s ∈ gpart, s.tile_type = TileType.Grass)) :=
  generate_voronoi_records_nearest_seed 0 0 0 0 0 1 [(0, 0, 0)]
    (by decide) (by decide)

end TupacWasm

namespace TupacWasm

/-! ### Grid state (WFC state)

Embeds `WfcState` (source lines 24-58) with hash maps modelled
extensionally as `Coord → Option TileType`, and `generate_layout`
(source lines 953-968), which clears the grid and copies every
pre-constraint into it.  The iteration order of the `pre_constraints` hash
map is taken as an explicit entry list constrained by `MapEnumOk`. -/

/-- State structure (source lines 24-27). -/
structure WfcState where
  grid : Coord → Option TileType
  pre_constraints : Coord → Option TileType

/-- Embeds `WfcState::new` (source lines 30-35). -/
def WfcState.new : WfcState := ⟨fun _ => none, fun _ => none⟩

/-- Embeds `WfcState::clear` (source lines 37-40): wipes the grid only;
pre-constraints persist. -/
def WfcState.clear (s : WfcState) : WfcState :=
  { s with grid := fun _ => none }

/-- Embeds `WfcState::set_pre_constraint` (source lines 44-47). -/
def WfcState.set_pre_constraint (s : WfcState) (q r : ℤ) (tile : TileType) :
    WfcState :=
  { s with pre_constraints :=
      fun k => if k = (q, r) then some tile else s.pre_constraints k }

/-- Embeds `WfcState::clear_pre_constraints` (source lines 50-52). -/
def WfcState.clear_pre_constraints (s : WfcState) : WfcState :=
  { s with pre_constraints := fun _ => none }

/-- Embeds `WfcState::get_tile` (source lines 55-57). -/
def WfcState.get_tile (s : WfcState) (q r : ℤ) : Option TileType :=
  s.grid (q, r)

/-- `entries` is a possible iteration order of the hash map `m`: the
key-value pairs of `m`, each exactly the map's binding. -/
def MapEnumOk (m : Coord → Option TileType)
    (entries : List (Coord × TileType)) : Prop :=
  ∀ k v, m k = some v ↔ (k, v) ∈ entries

/-- Sequentially `insert` each collected pre-constraint into a grid
(source lines 961-964). -/
def applyEntries (g : Coord → Option TileType)
    (entries : List (Coord × TileType)) : Coord → Option TileType :=
  entries.foldl (fun g e => fun k => if k = e.1 then some e.2 else g k) g

/-- Embeds `generate_layout` (source lines 953-968): clear the grid, then
insert every pre-constraint (in hash-map iteration order `entries`). -/
def generate_layout (s : WfcState) (entries : List (Coord × TileType)) :
    WfcState :=
  let s := s.clear
  { s with grid := applyEntries s.grid entries }

theorem applyEntries_not_mem_aux :
    ∀ (entries : List (Coord × TileType)) (g : Coord → Option TileType)
      (k : Coord), (∀ v, (k, v) ∉ entries) → applyEntries g entries k = g k := by
  intro entries
  induction entries with
  | nil => intro g k _; rfl
  | cons e rest ih =>
    intro g k hnot
    show applyEntries (fun x => if x = e.1 then some e.2 else g x) rest k = g k
    have hke : k ≠ e.1 := by
      intro hk
      exact hnot e.2 (by rw [hk]; exact List.mem_cons_self _ _)
    rw [ih _ k (fun v hv => hnot v (List.mem_cons_of_mem _ hv))]
    simp [hke]

theorem applyEntries_mem :
    ∀ (entries : List (Coord × TileType)) (g : Coord → Option TileType)
      (k : Coord) (v : TileType), (k, v) ∈ entries →
      (∀ v', (k, v') ∈ entries → v' = v) → applyEntries g entries k = some v := by
  intro entries
  induction entries with
  | nil =>
    intro g k v hmem _
    simp at hmem
  | cons e rest ih =>
    intro g k v hmem huniq
    show applyEntries (fun x => if x = e.1 then some e.2 else g x) rest k = some v
    by_cases hrest : ∃ v', (k, v') ∈ rest
    · obtain ⟨v', hv'⟩ := hrest
      have hv'v : v' = v := huniq v' (List.mem_cons_of_mem _ hv')
      subst hv'v
      exact ih _ k v' hv'
        (fun v'' hv'' => huniq v'' (List.mem_cons_of_mem _ hv''))
    · push_neg at hrest
      have hke : (k, v) = e := by
        rcases List.mem_cons.mp hmem with h | h
        · exact h
        · exact absurd h (hrest v)
      have hnot : ∀ v'', (k, v'') ∉ rest := hrest
      calc applyEntries (fun x => if x = e.1 then some e.2 else g x) rest k
          = (fun x => if x = e.1 then some e.2 else g x) k := by
            apply applyEntries_not_mem_aux
            exact hnot
        _ = some v := by
            rw [← hke]
            simp

end TupacWasm

namespace TupacWasm

/-- After `generate_layout`, the grid equals the pre-constraint map. -/
theorem generate_layout_grid_eq (s : WfcState)
    (entries : List (Coord × TileType))
    (h : MapEnumOk s.pre_constraints entries) :
    (generate_layout s entries).grid = s.pre_constraints := by
  funext k
  show applyEntries (fun _ => none) entries k = s.pre_constraints k
  cases hm : s.pre_constraints k with
  | some v =>
    apply applyEntries_mem entries _ k v ((h k v).mp hm)
    intro v' hv'
    have := (h k v').mpr hv'
    rw [hm] at this
    exact (Option.some_inj.mp this).symm
  | none =>
    rw [applyEntries_not_mem_aux entries _ k]
    intro v hv
    have := (h k v).mpr hv
    rw [hm] at this
    cases this

/-- C7: `generate_layout` leaves the pre-constraints untouched and makes the
grid equal to them; calling it twice with the pre-constraint map unchanged
(under any two valid hash-map iteration orders) gives identical grids;
`clear_layout` (grid wipe, pre-constraints kept) followed by
`generate_layout` reproduces the grid from before the clear. -/
theorem generate_layout_idempotent (s : WfcState)
    (entries1 entries2 : List (Coord × TileType))
    (h1 : MapEnumOk s.pre_constraints entries1)
    (h2 : MapEnumOk s.pre_constraints entries2) :
    (generate_layout s entries1).grid = s.pre_constraints ∧
    (generate_layout s entries1).pre_constraints = s.pre_constraints ∧
    (s.clear).pre_constraints = s.pre_constraints ∧
    (generate_layout (generate_layout s entries1) entries2).grid =
      (generate_layout s entries1).grid ∧
    (generate_layout ((generate_layout s entries1).clear) entries2).grid =
      (generate_layout s entries1).grid := by
  have hpre : (generate_layout s entries1).pre_constraints =
      s.pre_constraints := rfl
  have hg1 := generate_layout_grid_eq s entries1 h1
  refine ⟨hg1, hpre, rfl, ?_, ?_⟩
  · have h2' : MapEnumOk (generate_layout s entries1).pre_constraints
        entries2 := by rw [hpre]; exact h2
    rw [generate_layout_grid_eq _ entries2 h2', hpre, hg1]
  · have h2' : MapEnumOk ((generate_layout s entries1).clear).pre_constraints
        entries2 := by
      show MapEnumOk (generate_layout s entries1).pre_constraints entries2
      rw [hpre]
      exact h2
    rw [generate_layout_grid_eq _ entries2 h2']
    show (generate_layout s entries1).pre_constraints = _
    rw [hpre, hg1]

/-- Witness for C7 at a concrete input: one road pre-constraint. -/
theorem generate_layout_idempotent_witness :
    ∃ (s : WfcState) (entries : List (Coord × TileType)),
      (generate_layout s entries).grid = s.pre_constraints ∧
      (generate_layout (generate_layout s entries) entries).grid =
        (generate_layout s entries).grid := by
  refine ⟨⟨fun _ => none,
    fun k => if k = (0, 0) then some TileType.Road else none⟩,
    [((0, 0), TileType.Road)], ?_⟩
  have hok : MapEnumOk
      (fun k : Coord => if k = (0, 0) then some TileType.Road else none)
      [((0, 0), TileType.Road)] := by
    intro k v
    by_cases hk : k = (0, 0)
    · subst hk
      simp [eq_comm]
    · simp only [if_neg hk, List.mem_singleton, Prod.mk.injEq]
      constructor
      · intro h
        cases h
      · rintro ⟨h, _⟩
        exact absurd h hk
  have := generate_layout_idempotent
    ⟨fun _ => none, fun k => if k = (0, 0) then some TileType.Road else none⟩
    [((0, 0), TileType.Road)] [((0, 0), TileType.Road)] hok hok
  exact ⟨this.1, this.2.2.2.1⟩

end TupacWasm

namespace TupacWasm

/-! ### Growing-tree road network

Embeds `find_nearest_in_set` (source lines 1072-1092) and
`generate_road_network_growing_tree` (source lines 1182-1315).  The hash
sets `connected` and `unconnected` are iterated, so the embedding takes an
iteration-order oracle `ord` mapping each set to the list in which its
elements are visited; the parsed `seeds` hash set is likewise passed as the
list of its iteration order.  The `i32::MAX` initial minimum distance is
embedded as an `Option` accumulator (the first visited element always
replaces it).  The calls `hex_astar(...)` + `parse_path_json(...)` on the
serialized terrain set are embedded as the coordinate-level `hex_astar` on
the terrain set itself (the JSON encode/decode pair is the identity on the
coordinate lists involved). -/

/-- `ord S` enumerates exactly the elements of `S`. -/
def SetEnumOk (ord : Finset Coord → List Coord) : Prop :=
  ∀ (S : Finset Coord) (x : Coord), x ∈ ord S ↔ x ∈ S

/-- Embeds `find_nearest_in_set` (source lines 1072-1092): `none` on the
empty set, otherwise the first element (in iteration order) attaining the
minimal hex distance to `point`, with that distance. -/
def find_nearest_in_set (ord : Finset Coord → List Coord) (point : Coord)
    (connected_set : Finset Coord) : Option (Coord × ℤ) :=
  if connected_set = ∅ then none
  else
    (ord connected_set).foldl (fun acc cp =>
      let dist := hex_distance point.1 point.2 cp.1 cp.2
      match acc with
      | none => some (cp, dist)
      | some (_, md) => if dist < md then some (cp, dist) else acc) none

/-- One iteration of the phase-1 seed-connection loop
(source lines 1227-1259), acting on `(connected, unconnected)`. -/
def phase1Step (ord : Finset Coord → List Coord)
    (terrain : Finset Coord) (st : Finset Coord × Finset Coord)
    (seed : Coord) : Finset Coord × Finset Coord :=
  if seed ∉ terrain then st
  else if st.1 = ∅ then (insert seed st.1, st.2.erase seed)
  else
    match find_nearest_in_set ord seed st.1 with
    | some (nearest, _) =>
      match hex_astar nearest.1 nearest.2 seed.1 seed.2 terrain with
      | some path =>
        (path.foldl (fun c p => insert p c) st.1,
         path.foldl (fun u p => u.erase p) st.2)
      | none => st
    | none => st

/-- The global nearest unconnected/connected pair of the phase-2 scan
(source lines 1264-1277): first (in iteration order) unconnected point
with the strictly smallest distance to its nearest connected road. -/
def selectPair (ord : Finset Coord → List Coord)
    (connected unconnected : Finset Coord) : Option (Coord × Coord) :=
  ((ord unconnected).foldl (fun acc up =>
    match find_nearest_in_set ord up connected with
    | some (nr, d) =>
      match acc with
      | none => some (up, nr, d)
      | some (_, _, md) => if d < md then some (up, nr, d) else acc
    | none => acc) (none : Option (Coord × Coord × ℤ))).map
    (fun t => (t.1, t.2.1))

/-- The phase-2 densification loop (source lines 1263-1304), with explicit
fuel; every iteration either returns or removes at least one element from
`unconnected`, so the fuel supplied by the entry point covers the loop. -/
def phase2 (ord : Finset Coord → List Coord) (terrain : Finset Coord)
    (target : ℤ) : ℕ → Finset Coord → Finset Coord → Finset Coord
  | 0, connected, _ => connected
  | fuel + 1, connected, unconnected =>
    if (connected.card : ℤ) < target ∧ unconnected ≠ ∅ then
      match selectPair ord connected unconnected with
      | some (up, nr) =>
        match hex_astar nr.1 nr.2 up.1 up.2 terrain with
        | some path =>
          phase2 ord terrain target fuel
            (path.foldl (fun c p => insert p c) connected)
            (path.foldl (fun u p => u.erase p) unconnected)
        | none => phase2 ord terrain target fuel connected (unconnected.erase up)
      | none => connected
    else connected

/-- Lexicographic order on coordinates: the order `Vec<(i32, i32)>::sort`
uses (source lines 1202-1203, 1307-1308). -/
def coordLe (a b : Coord) : Prop := a.1 < b.1 ∨ (a.1 = b.1 ∧ a.2 ≤ b.2)

instance : DecidableRel coordLe := fun a b => by
  unfold coordLe
  infer_instance

instance : IsTrans Coord coordLe := by
  refine ⟨fun a b c hab hbc => ?_⟩
  rcases hab with h1 | ⟨h1, h1'⟩ <;> rcases hbc with h2 | ⟨h2, h2'⟩ <;>
    unfold coordLe <;> [left; left; left; right] <;> omega

instance : IsAntisymm Coord coordLe := by
  refine ⟨fun a b hab hba => ?_⟩
  obtain ⟨a1, a2⟩ := a
  obtain ⟨b1, b2⟩ := b
  rcases hab with h1 | ⟨h1, h1'⟩ <;> rcases hba with h2 | ⟨h2, h2'⟩ <;>
    simp only [Prod.mk.injEq] <;> constructor <;> omega

instance : IsTotal Coord coordLe := by
  refine ⟨fun a b => ?_⟩
  unfold coordLe
  rcases lt_trichotomy a.1 b.1 with h | h | h
  · exact Or.inl (Or.inl h)
  · rcases le_total a.2 b.2 with h' | h'
    · exact Or.inl (Or.inr ⟨h, h'⟩)
    · exact Or.inr (Or.inr ⟨h.symm, h'⟩)
  · exact Or.inr (Or.inl h)

/-- Embeds `generate_road_network_growing_tree` (source lines 1182-1315):
effective terrain is valid terrain minus occupied; phase 1 roots the
network at the first seed and connects the rest; phase 2 densifies towards
the target count; the final connected set is emitted in sorted order. -/
def generate_road_network_growing_tree (ord : Finset Coord → List Coord)
    (seeds : List Coord) (valid_terrain occupied : Finset Coord)
    (target_count : ℤ) : List Coord :=
  let valid_terrain_set := valid_terrain \ occupied
  let st0 : Finset Coord × Finset Coord := (∅, valid_terrain_set)
  let st1 := match seeds with
    | [] => st0
    | s0 :: srest =>
      let stA := if s0 ∈ valid_terrain_set
        then (insert s0 st0.1, st0.2.erase s0) else st0
      srest.foldl (phase1Step ord valid_terrain_set) stA
  let connected := phase2 ord valid_terrain_set target_count
    (st1.2.card + 1) st1.1 st1.2
  connected.sort coordLe

end TupacWasm

namespace TupacWasm

/-- Any path returned by `hex_astar` lies entirely in the terrain set. -/
theorem hex_astar_mem_terrain {sq sr gq gr : ℤ} {T : Finset Coord}
    {p : List Coord} (h : hex_astar sq sr gq gr T = some p) :
    ∀ c ∈ p, c ∈ T := by
  unfold hex_astar at h
  by_cases hmem : (sq, sr) ∉ T ∨ (gq, gr) ∉ T
  · rw [if_pos hmem] at h
    cases h
  · rw [if_neg hmem] at h
    push_neg at hmem
    obtain ⟨hsT, hgT⟩ := hmem
    by_cases heq : sq = gq ∧ sr = gr
    · rw [if_pos heq] at h
      have hp : p = [(sq, sr)] := (Option.some_inj.mp h).symm
      subst hp
      intro c hc
      simp only [List.mem_singleton] at hc
      subst hc
      exact hsT
    · rw [if_neg heq, cubeHeuristic_eq_hexHeuristic] at h
      have hsg : (sq, sr) ≠ (gq, gr) := by
        intro hx
        exact heq ⟨congrArg Prod.fst hx, congrArg Prod.snd hx⟩
      have hmain := astarLoop_main (hexHeuristic_consistent (gq, gr)) hsT hsg
        (astar_fuel T)
        [AStarNode.new sq sr 0 (hexHeuristic (gq, gr) (sq, sr)) sq sr] ∅
        (fun x => if x = (sq, sr) then some 0 else none) (fun _ => none)
        (AInv.initial T (sq, sr) (gq, gr) (hexHeuristic (gq, gr)) hsT)
        (by simp [astar_fuel]; omega)
      cases hres : astarLoop T (gq, gr) (hexHeuristic (gq, gr)) (astar_fuel T)
          [AStarNode.new sq sr 0 (hexHeuristic (gq, gr) (sq, sr)) sq sr] ∅
          (fun x => if x = (sq, sr) then some 0 else none) (fun _ => none) with
      | none =>
        rw [hres] at h
        cases h
      | some pr =>
        obtain ⟨n, par⟩ := pr
        rw [hres] at h
        obtain ⟨_, _, l, hl, _, _, _, hlmem, _⟩ := hmain.2 n par hres
        have hp : p = (reconstructPath par (sq, sr) (n + 1) (gq, gr) []).reverse :=
          (Option.some_inj.mp h).symm
        subst hp
        intro c hc
        rw [hl, List.mem_reverse] at hc
        exact hlmem c hc

theorem foldl_insert_subset {T : Finset Coord} :
    ∀ (path : List Coord) (conn : Finset Coord),
      (∀ c ∈ conn, c ∈ T) → (∀ q ∈ path, q ∈ T) →
      ∀ c ∈ path.foldl (fun c p => insert p c) conn, c ∈ T := by
  intro path
  induction path with
  | nil =>
    intro conn hconn _
    exact hconn
  | cons a path ih =>
    intro conn hconn hpath
    simp only [List.foldl_cons]
    apply ih
    · intro c hc
      rcases Finset.mem_insert.mp hc with rfl | hc'
      · exact hpath _ (List.mem_cons_self _ _)
      · exact hconn c hc'
    · intro q hq
      exact hpath q (List.mem_cons_of_mem _ hq)

theorem phase1Step_subset {ord : Finset Coord → List Coord}
    {terrain : Finset Coord} {st : Finset Coord × Finset Coord} {seed : Coord}
    (hst : ∀ c ∈ st.1, c ∈ terrain) :
    ∀ c ∈ (phase1Step ord terrain st seed).1, c ∈ terrain := by
  unfold phase1Step
  by_cases h1 : seed ∉ terrain
  · rw [if_pos h1]
    exact hst
  · rw [if_neg h1]
    push_neg at h1
    by_cases h2 : st.1 = ∅
    · rw [if_pos h2]
      intro c hc
      rcases Finset.mem_insert.mp hc with rfl | hc'
      · exact h1
      · exact hst c hc'
    · rw [if_neg h2]
      split
      next nearest d hfind =>
        split
        next path hastar =>
          exact foldl_insert_subset _ _ hst (hex_astar_mem_terrain hastar)
        next hastar => exact hst
      next hfind => exact hst

theorem phase2_subset {ord : Finset Coord → List Coord}
    {terrain : Finset Coord} {target : ℤ} :
    ∀ (fuel : ℕ) (connected unconnected : Finset Coord),
      (∀ c ∈ connected, c ∈ terrain) →
      ∀ c ∈ phase2 ord terrain target fuel connected unconnected, c ∈ terrain := by
  intro fuel
  induction fuel with
  | zero => intro connected _ hc; exact hc
  | succ fuel ih =>
    intro connected unconnected hc
    show ∀ c ∈ (if (connected.card : ℤ) < target ∧ unconnected ≠ ∅ then _
      else connected), c ∈ terrain
    by_cases hcond : (connected.card : ℤ) < target ∧ unconnected ≠ ∅
    · rw [if_pos hcond]
      split
      next up nr hsel =>
        split
        next path hastar =>
          exact ih _ _ (foldl_insert_subset _ _ hc (hex_astar_mem_terrain hastar))
        next hastar => exact ih _ _ hc
      next hsel => exact hc
    · rw [if_neg hcond]
      exact hc

/-- C9: every coordinate in the output of
`generate_road_network_growing_tree` lies in the parsed valid-terrain set
minus the parsed occupied set; in particular no occupied coordinate ever
appears in the returned road network, for any seeds, terrain, occupied
cells, target count and hash-set iteration orders. -/
theorem generate_road_network_growing_tree_subset
    (ord : Finset Coord → List Coord) (seeds : List Coord)
    (valid_terrain occupied : Finset Coord) (target_count : ℤ) :
    ∀ c ∈ generate_road_network_growing_tree ord seeds valid_terrain occupied
      target_count, c ∈ valid_terrain ∧ c ∉ occupied := by
  intro c hc
  unfold generate_road_network_growing_tree at hc
  rw [Finset.mem_sort] at hc
  have hsub : ∀ x ∈ (valid_terrain \ occupied : Finset Coord),
      x ∈ valid_terrain \ occupied := fun x hx => hx
  have hph1 : ∀ (st : Finset Coord × Finset Coord),
      (∀ x ∈ st.1, x ∈ valid_terrain \ occupied) →
      ∀ (l : List Coord), ∀ x ∈ (l.foldl
        (phase1Step ord (valid_terrain \ occupied)) st).1,
        x ∈ valid_terrain \ occupied := by
    intro st hst l
    induction l generalizing st with
    | nil => exact hst
    | cons a l ih =>
      simp only [List.foldl_cons]
      exact ih _ (phase1Step_subset hst)
  have hconn : ∀ x ∈ (match seeds with
      | [] => ((∅ : Finset Coord), valid_terrain \ occupied)
      | s0 :: srest =>
        srest.foldl (phase1Step ord (valid_terrain \ occupied))
          (if s0 ∈ valid_terrain \ occupied
            then (insert s0 (∅ : Finset Coord),
              (valid_terrain \ occupied).erase s0)
            else ((∅ : Finset Coord), valid_terrain \ occupied))).1,
      x ∈ valid_terrain \ occupied := by
    cases seeds with
    | nil =>
      intro x hx
      simp at hx
    | cons s0 srest =>
      apply hph1
      by_cases hs0 : s0 ∈ valid_terrain \ occupied
      · rw [if_pos hs0]
        intro x hx
        rcases Finset.mem_insert.mp hx with rfl | hx'
        · exact hs0
        · simp at hx'
      · rw [if_neg hs0]
        intro x hx
        simp at hx
  have := phase2_subset _ _ _ hconn c hc
  exact Finset.mem_sdiff.mp this

/-- Witness for C9 at a concrete input: the origin belongs to the network
grown from seed (0,0) on the one-cell terrain, so it lies in the terrain
and off the occupied set. -/
theorem generate_road_network_growing_tree_subset_witness :
    ((0 : ℤ), (0 : ℤ)) ∈ ({((0 : ℤ), (0 : ℤ))} : Finset Coord) ∧
      ((0 : ℤ), (0 : ℤ)) ∉ (∅ : Finset Coord) :=
  generate_road_network_growing_tree_subset (fun S => S.sort coordLe)
    [(0, 0)] {(0, 0)} ∅ 1 (0, 0)
    (by
      have h : generate_road_network_growing_tree (fun S => S.sort coordLe)
          [(0, 0)] {(0, 0)} ∅ 1
          = Finset.sort coordLe {((0 : ℤ), (0 : ℤ))} := rfl
      rw [h, Finset.sort_singleton]
      exact List.mem_singleton.mpr rfl)

end TupacWasm

namespace TupacWasm

/-! ### The JSON wire strings: hex_astar output and build_path_between_roads -/

/-- The double-quote character, kept as a named constant. -/
def quoteChar : Char := Char.ofNat 34

/-- Decimal digit character for a digit value below ten. -/
def digitChar (d : ℕ) : Char := Char.ofNat (48 + d)

/-- Decimal digits of a natural number, most significant first (fuel-based
structural recursion; fuel `n + 1` always suffices since the argument is
divided by ten at each step). -/
def natDigitsFuel : ℕ → ℕ → List Char
  | 0, _ => []
  | fuel + 1, n =>
    if n < 10 then [digitChar n]
    else natDigitsFuel fuel (n / 10) ++ [digitChar (n % 10)]

/-- Decimal digits of a natural number. -/
def natDigits (n : ℕ) : List Char := natDigitsFuel (n + 1) n

/-- Decimal rendering of an integer, as Rust `format!` renders an `i32`:
an optional leading minus sign followed by the decimal digits. -/
def fmtInt (n : ℤ) : List Char :=
  if n < 0 then '-' :: natDigits n.natAbs else natDigits n.toNat

/-- Renders one coordinate object, the format string of source lines 345
and 411. -/
def fmtCoordJson (q r : ℤ) : List Char :=
  '\x7b' :: quoteChar :: 'q' :: quoteChar :: ':' :: fmtInt q ++
    ',' :: quoteChar :: 'r' :: quoteChar :: ':' :: fmtInt r ++ ['\x7d']

/-- Rust `Vec::join(",")` on rendered pieces (source lines 413, 545). -/
def joinComma : List (List Char) → List Char
  | [] => []
  | [x] => x
  | x :: y :: rest => x ++ ',' :: joinComma (y :: rest)

/-- The literal string `"null"` as a character list. -/
def nullChars : List Char := ['n', 'u', 'l', 'l']

/-- Embeds the string output of `hex_astar` (source lines 326-449) on top
of the decoded result `hex_astar`: a found path is rendered as a JSON
array of coordinate objects (source lines 408-414), and the single-node
early return of lines 342-345 produces exactly the rendering of the
corresponding one-element path; every `"null"` return is `nullChars`. -/
def hex_astar_json (start_q start_r goal_q goal_r : ℤ)
    (valid_terrain : Finset Coord) : List Char :=
  match hex_astar start_q start_r goal_q goal_r valid_terrain with
  | some path =>
    '[' :: joinComma (path.map (fun c => fmtCoordJson c.1 c.2)) ++ [']']
  | none => nullChars

/-- The whitespace characters relevant to Rust `str::trim` around this
ASCII JSON. -/
def isWs (c : Char) : Bool := c == ' ' || c == '\t' || c == '\n' || c == '\r'

/-- Rust `str::trim` on the character list (source line 518 region: the
`trimmed` binding at line 547 of the parsing block). -/
def trimChars (cs : List Char) : List Char :=
  ((cs.dropWhile isWs).reverse.dropWhile isWs).reverse

/-- The key-pattern test of the parsing loop (source lines 492, 510): the
character at the cursor is a double quote, the next is the key, the one
after is a double quote, and at least one further character exists
(the `i + 3 < chars.len()` bound). -/
def isKey (key : Char) (cs : List Char) : Bool :=
  match cs with
  | a :: b :: c :: _ :: _ => a == quoteChar && b == key && c == quoteChar
  | _ => false

/-- Skips the separator characters `':'`, `' '`, `'\t'` after a key
(source lines 495-497 and 513-515). -/
def skipSep (cs : List Char) : List Char :=
  cs.dropWhile (fun c => c == ':' || c == ' ' || c == '\t')

/-- Numeric value of a digit string, most significant digit first. -/
def digitsVal (ds : List Char) : ℕ :=
  ds.foldl (fun acc c => 10 * acc + (c.toNat - 48)) 0

/-- Reads an integer literal as the parsing loop does (source lines
498-509): a leading minus sign or digit followed by digits; the value is
`none` (left unchanged by the caller) when the literal is a bare minus
sign or does not fit in an `i32`. Returns the value and the unconsumed
suffix. -/
def readNum : List Char → Option ℤ × List Char
  | [] => (none, [])
  | c :: cs =>
    if c == '-' then
      (if (cs.takeWhile Char.isDigit) ≠ [] ∧
          digitsVal (cs.takeWhile Char.isDigit) ≤ 2147483648 then
        some (-(digitsVal (cs.takeWhile Char.isDigit) : ℤ))
      else none, cs.dropWhile Char.isDigit)
    else if c.isDigit then
      (if digitsVal (c :: cs.takeWhile Char.isDigit) ≤ 2147483647 then
        some ((digitsVal (c :: cs.takeWhile Char.isDigit) : ℤ))
      else none, cs.dropWhile Char.isDigit)
    else (none, c :: cs)

/-- `if let Ok(num) = ... { value = Some(num) }`: the stored value is
replaced only when the read succeeded. -/
def updOpt (old new : Option ℤ) : Option ℤ :=
  match new with
  | some v => some v
  | none => old

/-- `if let (Some(q), Some(r)) = (q_value, r_value)` (source line 533). -/
def pairOpt (qv rv : Option ℤ) : Option Coord :=
  match qv, rv with
  | some q, some r => some (q, r)
  | _, _ => none

/-- The object-scanning inner loop of the parser (source lines 489-530):
starting just after a `'\x7b'`, scan until the closing `'\x7d'` or the end
of input, reading `"q"` and `"r"` values; returns the coordinate (when
both values were read) and the suffix starting at the closing brace.
Fuel-based: every iteration consumes at least one character, so fuel
`length + 1` suffices. -/
def parseObjF : ℕ → List Char → Option ℤ → Option ℤ → Option Coord × List Char
  | 0, cs, qv, rv => (pairOpt qv rv, cs)
  | _ + 1, [], qv, rv => (pairOpt qv rv, [])
  | fuel + 1, c :: cs, qv, rv =>
    if c = '\x7d' then (pairOpt qv rv, c :: cs)
    else if isKey 'q' (c :: cs) then
      parseObjF fuel (readNum (skipSep (cs.drop 2))).2
        (updOpt qv (readNum (skipSep (cs.drop 2))).1) rv
    else if isKey 'r' (c :: cs) then
      parseObjF fuel (readNum (skipSep (cs.drop 2))).2 qv
        (updOpt rv (readNum (skipSep (cs.drop 2))).1)
    else parseObjF fuel cs qv rv

/-- The outer scanning loop of the parser (source lines 486-536): at each
`'\x7b'` run the object scan and collect its coordinate, then continue
just past the character the object scan stopped at; otherwise advance one
character. Fuel-based: every iteration consumes at least one character. -/
def parseCoordsF : ℕ → List Char → List Coord
  | 0, _ => []
  | _ + 1, [] => []
  | fuel + 1, c :: cs =>
    if c = '\x7b' then
      (match (parseObjF (cs.length + 1) cs none none).1 with
        | some p => [p]
        | none => []) ++
        parseCoordsF fuel ((parseObjF (cs.length + 1) cs none none).2.tail)
    else parseCoordsF fuel cs

/-- The coordinate list extracted by the parsing loop from a character
string. -/
def parseCoords (cs : List Char) : List Coord :=
  parseCoordsF (cs.length + 1) cs

/-- Embeds `build_path_between_roads` (source lines 462-552): call
`hex_astar`, return `"null"` when it did, trim, return `"null"` on `"[]"`
or fewer than three characters, parse the coordinate objects, return
`"null"` when fewer than two were found, else render the list without its
first element. -/
def build_path_between_roads (start_q start_r end_q end_r : ℤ)
    (valid_terrain : Finset Coord) : List Char :=
  if hex_astar_json start_q start_r end_q end_r valid_terrain = nullChars ∨
      hex_astar_json start_q start_r end_q end_r valid_terrain = [] then
    nullChars
  else if trimChars (hex_astar_json start_q start_r end_q end_r valid_terrain)
        = ['[', ']'] ∨
      (trimChars (hex_astar_json start_q start_r end_q end_r
        valid_terrain)).length < 3 then
    nullChars
  else if (parseCoords (trimChars (hex_astar_json start_q start_r end_q end_r
      valid_terrain))).length < 2 then
    nullChars
  else
    '[' :: joinComma (((parseCoords (trimChars (hex_astar_json start_q start_r
      end_q end_r valid_terrain))).drop 1).map
        (fun c => fmtCoordJson c.1 c.2)) ++ [']']

end TupacWasm

namespace TupacWasm

/-! ### Parser bounds: at most one coordinate per opening brace -/

theorem readNum_suffix (cs : List Char) : (readNum cs).2 <:+ cs := by
  cases cs with
  | nil => exact List.suffix_refl _
  | cons c cs =>
    simp only [readNum]
    split_ifs <;>
      first
      | exact (List.dropWhile_suffix _).trans (List.suffix_cons _ _)
      | exact List.suffix_refl _

theorem skipSep_suffix (cs : List Char) : skipSep cs <:+ cs :=
  List.dropWhile_suffix _

theorem parseObjF_suffix :
    ∀ (fuel : ℕ) (cs : List Char) (qv rv : Option ℤ),
      (parseObjF fuel cs qv rv).2 <:+ cs := by
  intro fuel
  induction fuel with
  | zero => intro cs qv rv; exact List.suffix_refl _
  | succ fuel ih =>
    intro cs qv rv
    cases cs with
    | nil => exact List.suffix_refl _
    | cons c cs =>
      simp only [parseObjF]
      split_ifs with h1 h2 h3
      · exact List.suffix_refl _
      · exact ((((ih _ _ _).trans (readNum_suffix _)).trans
          (skipSep_suffix _)).trans (List.drop_suffix _ _)).trans
          (List.suffix_cons _ _)
      · exact ((((ih _ _ _).trans (readNum_suffix _)).trans
          (skipSep_suffix _)).trans (List.drop_suffix _ _)).trans
          (List.suffix_cons _ _)
      · exact (ih _ _ _).trans (List.suffix_cons _ _)

theorem parseCoordsF_length_le :
    ∀ (fuel : ℕ) (cs : List Char),
      (parseCoordsF fuel cs).length ≤ cs.count '\x7b' := by
  intro fuel
  induction fuel with
  | zero => intro cs; simp [parseCoordsF]
  | succ fuel ih =>
    intro cs
    cases cs with
    | nil => simp [parseCoordsF]
    | cons c cs =>
      simp only [parseCoordsF]
      by_cases hc : c = '\x7b'
      · rw [if_pos hc]
        subst hc
        have hrest : ((parseObjF (cs.length + 1) cs none none).2.tail).count
            '\x7b' ≤ cs.count '\x7b' :=
          (((List.tail_suffix _).trans (parseObjF_suffix _ _ _ _)).sublist).count_le _
        have htot := (ih ((parseObjF (cs.length + 1) cs none none).2.tail)).trans
          hrest
        rw [List.count_cons_self]
        cases hopt : (parseObjF (cs.length + 1) cs none none).1 with
        | none => simp only [List.nil_append]; omega
        | some p =>
          simp only [List.singleton_append, List.length_cons]
          omega
      · rw [if_neg hc]
        refine (ih cs).trans (le_trans ?_ (le_refl _))
        exact (List.sublist_cons_self c cs).count_le _

theorem natDigitsFuel_mem :
    ∀ (fuel n : ℕ), ∀ c ∈ natDigitsFuel fuel n, ∃ d, d < 10 ∧ c = digitChar d := by
  intro fuel
  induction fuel with
  | zero => intro n c hc; simp [natDigitsFuel] at hc
  | succ fuel ih =>
    intro n c hc
    simp only [natDigitsFuel] at hc
    by_cases h : n < 10
    · rw [if_pos h] at hc
      simp only [List.mem_singleton] at hc
      exact ⟨n, h, hc⟩
    · rw [if_neg h] at hc
      rcases List.mem_append.mp hc with h1 | h1
      · exact ih _ _ h1
      · simp only [List.mem_singleton] at h1
        exact ⟨n % 10, Nat.mod_lt _ (by omega), h1⟩

theorem fmtInt_no_brace (n : ℤ) : '\x7b' ∉ fmtInt n := by
  have hd : ∀ d, d < 10 → digitChar d ≠ '\x7b' := by decide
  intro hmem
  unfold fmtInt natDigits at hmem
  split_ifs at hmem with h
  · rcases List.mem_cons.mp hmem with h1 | h1
    · exact absurd h1 (by decide)
    · obtain ⟨d, hd10, hcd⟩ := natDigitsFuel_mem _ _ _ h1
      exact hd d hd10 hcd.symm
  · obtain ⟨d, hd10, hcd⟩ := natDigitsFuel_mem _ _ _ hmem
    exact hd d hd10 hcd.symm

theorem trimChars_of_ends {c d : Char} (mid : List Char)
    (hc : isWs c = false) (hd : isWs d = false) :
    trimChars (c :: mid ++ [d]) = c :: mid ++ [d] := by
  rw [List.cons_append]
  have h1 : List.dropWhile isWs (c :: (mid ++ [d])) = c :: (mid ++ [d]) := by
    simp [List.dropWhile_cons, hc]
  have h2 : (c :: (mid ++ [d])).reverse = d :: (mid.reverse ++ [c]) := by
    simp
  have h3 : List.dropWhile isWs (d :: (mid.reverse ++ [c]))
      = d :: (mid.reverse ++ [c]) := by
    simp [List.dropWhile_cons, hd]
  unfold trimChars
  rw [h1, h2, h3]
  simp

end TupacWasm

namespace TupacWasm

/-- C10: when the start equals the end and that cell is in the terrain
set, `build_path_between_roads` returns the string `"null"` rather than an
empty path list: the underlying `hex_astar` output is the one-node path
`[{"q":q,"r":r}]`, the parsing loop extracts at most one coordinate from
it (it contains a single opening brace), and every parse of fewer than
two coordinates is mapped to `"null"`. -/
theorem build_path_between_roads_self_null
    (q r : ℤ) (T : Finset Coord) (hmem : (q, r) ∈ T) :
    build_path_between_roads q r q r T = nullChars := by
  have hc : ¬((q, r) ∉ T ∨ (q, r) ∉ T) := by simp [hmem]
  have hast : hex_astar q r q r T = some [(q, r)] := by
    unfold hex_astar
    rw [if_neg hc, if_pos ⟨rfl, rfl⟩]
  have hjson : hex_astar_json q r q r T = '[' :: fmtCoordJson q r ++ [']'] := by
    unfold hex_astar_json
    rw [hast]
    rfl
  have hlen : 11 ≤ (fmtCoordJson q r).length := by
    simp only [fmtCoordJson, List.length_append, List.length_cons,
      List.length_singleton]
    omega
  have hne_null : hex_astar_json q r q r T ≠ nullChars := by
    rw [hjson]
    intro h
    have h2 : '[' = 'n' := by
      have h3 := congrArg List.head? h
      simpa [nullChars] using h3
    exact absurd h2 (by decide)
  have hne_nil : hex_astar_json q r q r T ≠ [] := by
    rw [hjson]
    simp
  have htrim : trimChars (hex_astar_json q r q r T) = hex_astar_json q r q r T := by
    rw [hjson]
    exact trimChars_of_ends _ (by decide) (by decide)
  have hlen2 : (hex_astar_json q r q r T).length = (fmtCoordJson q r).length + 2 := by
    rw [hjson]
    simp
  have hcount : (hex_astar_json q r q r T).count '\x7b' = 1 := by
    rw [hjson]
    have hq0 : (fmtInt q).count '\x7b' = 0 :=
      List.count_eq_zero.mpr (fmtInt_no_brace q)
    have hr0 : (fmtInt r).count '\x7b' = 0 :=
      List.count_eq_zero.mpr (fmtInt_no_brace r)
    simp +decide [fmtCoordJson, quoteChar, List.count_cons, List.count_append,
      hq0, hr0]
  have hcoords : (parseCoords (hex_astar_json q r q r T)).length ≤ 1 := by
    unfold parseCoords
    exact le_of_le_of_eq (parseCoordsF_length_le _ _) hcount
  have hne2 : trimChars (hex_astar_json q r q r T) ≠ ['[', ']'] := by
    rw [htrim]
    intro h
    have h4 := congrArg List.length h
    simp only [List.length_cons, List.length_nil] at h4
    omega
  have hlt3 : ¬(trimChars (hex_astar_json q r q r T)).length < 3 := by
    rw [htrim, hlen2]
    omega
  unfold build_path_between_roads
  rw [if_neg (not_or.mpr ⟨hne_null, hne_nil⟩),
    if_neg (not_or.mpr ⟨hne2, hlt3⟩),
    if_pos (by rw [htrim]; omega)]

theorem build_path_between_roads_self_null_witness :
    ((0 : ℤ), (0 : ℤ)) ∈ ({((0 : ℤ), (0 : ℤ))} : Finset Coord) ∧
      build_path_between_roads 0 0 0 0 ({((0 : ℤ), (0 : ℤ))} : Finset Coord)
        = nullChars :=
  ⟨Finset.mem_singleton.mpr rfl,
    build_path_between_roads_self_null 0 0 _ (Finset.mem_singleton.mpr rfl)⟩

end TupacWasm
